import Mathlib

/-!
Verification of the union-find crate (disjoint-set engine and the value
container built on top of it).

The Rust code is embedded shallowly: the parent-pointer forest becomes a
`List Nat` of parent indices plus a `List Nat` of ranks, and every operation
that mutates through interior mutability is modelled by explicit state
passing.  Operations that can panic on an out-of-bounds index return an
`Option` result paired with the state at the moment of the failure.

The source stores ranks as `u8`.  A root of rank `r` always has at least
`2 ^ r` descendants, so a rank can never reach `255` for any forest that fits
in memory; the embedding therefore uses `Nat` for ranks, where the increment
in the tie case of `join` never wraps.

Loops in the source (`root_of`, and the iteration bounded by `len` inside
`sets` and `eq`) terminate because the forest is acyclic; the embedding makes
the root-resolution loop structurally recursive on a fuel argument set to the
length of the parent list, and proves separately that this fuel is always
sufficient on states satisfying the forest invariant, so the fuel-exhaustion
branch is never taken on reachable states.
-/

namespace DisjointSpec

/-- The union-find engine: `parents` holds one parent index per element
(`parents[i] = i` marks a root), `ranks` one rank per element.  Mirrors the
Rust struct `DisjointSet { parents: Vec<Cell<usize>>, ranks: Vec<u8> }`. -/
structure DisjointSet where
  parents : List Nat
  ranks : List Nat
  deriving Repr, DecidableEq

/-- The loop of `root_of` (path halving): repeatedly look up the grandparent,
redirect the pointer of `child` to it, and advance.  The fuel argument is a
modelling artifact standing in for termination of the Rust `loop`; `none`
means the loop would read out of bounds or fail to terminate, which is shown
impossible on well-formed states. -/
def rootOfLoop : Nat → List Nat → Nat → Nat → Option (List Nat × Nat)
  | 0, _, _, _ => none
  | fuel + 1, p, child, parent =>
    match p[parent]? with
    | none => none
    | some grandparent =>
      if parent = grandparent then
        some (p, parent)
      else
        rootOfLoop fuel (p.set child grandparent) parent grandparent

/-- `DisjointSet::root_of`: returns the root of `child` and the state after
path compression.  `none` models a panic (index out of bounds); in that case
the returned state is the state at the failure, which for the initial bounds
check is the unmodified input. -/
def DisjointSet.root_of (ds : DisjointSet) (child : Nat) :
    Option Nat × DisjointSet :=
  match ds.parents[child]? with
  | none => (none, ds)
  | some parent =>
    if child = parent then
      (some child, ds)
    else
      match rootOfLoop ds.parents.length ds.parents child parent with
      | none => (none, ds)
      | some (p, r) => (some r, { parents := p, ranks := ds.ranks })

/-- `DisjointSet::with_len`: `len` singleton elements. -/
def DisjointSet.with_len (len : Nat) : DisjointSet :=
  { parents := List.range len, ranks := List.replicate len 0 }

/-- `DisjointSet::with_capacity`: empty structure (capacity is not modelled,
it has no observable effect on values). -/
def DisjointSet.with_capacity (_capacity : Nat) : DisjointSet :=
  { parents := [], ranks := [] }

/-- `DisjointSet::new`. -/
def DisjointSet.new : DisjointSet :=
  { parents := [], ranks := [] }

/-- `DisjointSet::len`. -/
def DisjointSet.len (ds : DisjointSet) : Nat :=
  ds.parents.length

/-- `DisjointSet::is_empty`. -/
def DisjointSet.is_empty (ds : DisjointSet) : Bool :=
  ds.parents.isEmpty

/-- `DisjointSet::clear`: drop all elements (retained capacity is not
modelled). -/
def DisjointSet.clear (_ds : DisjointSet) : DisjointSet :=
  { parents := [], ranks := [] }

/-- `DisjointSet::add_singleton`: append one element that is its own parent
with rank `0`, returning its index (the old length). -/
def DisjointSet.add_singleton (ds : DisjointSet) : Nat × DisjointSet :=
  let id := ds.len
  (id, { parents := ds.parents ++ [id], ranks := ds.ranks ++ [0] })

/-- The inner function `slow_path` of `DisjointSet::join`: resolve both
roots (with compression), compare ranks, relink. -/
def DisjointSet.slow_path (ds : DisjointSet) (first_element second_element : Nat) :
    Option Bool × DisjointSet :=
  match ds.root_of first_element with
  | (none, ds1) => (none, ds1)
  | (some root_first, ds1) =>
    match ds1.root_of second_element with
    | (none, ds2) => (none, ds2)
    | (some root_second, ds2) =>
      if root_first = root_second then
        (some false, ds2)
      else
        match ds2.ranks[root_second]?, ds2.ranks[root_first]? with
        | some rank_second, some rank_first =>
          if rank_first < rank_second then
            (some true, { ds2 with parents := ds2.parents.set root_first root_second })
          else
            let ranks1 :=
              if rank_first = rank_second then
                ds2.ranks.set root_first (rank_first + 1)
              else
                ds2.ranks
            (some true, { parents := ds2.parents.set root_second root_first, ranks := ranks1 })
        | _, _ => (none, ds2)

/-- `DisjointSet::join`: the immediate-parent fast path, then `slow_path`.
Both parent reads happen before any mutation, so an out-of-bounds argument
panics (`none`) with the state unchanged. -/
def DisjointSet.join (ds : DisjointSet) (first_element second_element : Nat) :
    Option Bool × DisjointSet :=
  match ds.parents[first_element]?, ds.parents[second_element]? with
  | some pa, some pb =>
    if pa = pb then
      (some false, ds)
    else
      ds.slow_path first_element second_element
  | _, _ => (none, ds)

/-- `DisjointSet::is_joined`: resolve both roots and compare. -/
def DisjointSet.is_joined (ds : DisjointSet) (first_element second_element : Nat) :
    Option Bool × DisjointSet :=
  match ds.root_of first_element with
  | (none, ds1) => (none, ds1)
  | (some ra, ds1) =>
    match ds1.root_of second_element with
    | (none, ds2) => (none, ds2)
    | (some rb, ds2) => (some (decide (ra = rb)), ds2)

/-- Association-list lookup used to model the `HashMap<usize, usize>` in
`sets` and `eq` (the maps are only queried pointwise, never iterated, so an
association list is an exact model). -/
def lookupNat : List (Nat × Nat) → Nat → Option Nat
  | [], _ => none
  | (k, v) :: rest, key => if k = key then some v else lookupNat rest key

/-- The loop of `DisjointSet::sets`: for each index (in ascending order)
resolve its root, find or create the group of that root, and push the index
onto that group. -/
def setsGo : DisjointSet → List Nat → List (List Nat) → List (Nat × Nat) →
    Option (List (List Nat)) × DisjointSet
  | ds, [], result, _ => (some result, ds)
  | ds, index :: rest, result, map =>
    match ds.root_of index with
    | (none, ds1) => (none, ds1)
    | (some root, ds1) =>
      match lookupNat map root with
      | some result_id =>
        setsGo ds1 rest (result.set result_id (result.getD result_id [] ++ [index])) map
      | none =>
        let result_id := result.length
        let result1 := result ++ [[]]
        setsGo ds1 rest (result1.set result_id (result1.getD result_id [] ++ [index]))
          ((root, result_id) :: map)

/-- `DisjointSet::sets`. -/
def DisjointSet.sets (ds : DisjointSet) : Option (List (List Nat)) × DisjointSet :=
  setsGo ds (List.range ds.len) [] []

/-- The loop of `PartialEq::eq` for `DisjointSet`: for each index, resolve
its root in both structures and check that the map from self roots to other
roots stays functional. -/
def eqGo : DisjointSet → DisjointSet → List Nat → List (Nat × Nat) →
    Option Bool × (DisjointSet × DisjointSet)
  | ds, dt, [], _ => (some true, (ds, dt))
  | ds, dt, i :: rest, map =>
    match ds.root_of i with
    | (none, ds1) => (none, (ds1, dt))
    | (some self_root, ds1) =>
      match dt.root_of i with
      | (none, dt1) => (none, (ds1, dt1))
      | (some other_root, dt1) =>
        match lookupNat map self_root with
        | some v =>
          if other_root = v then
            eqGo ds1 dt1 rest map
          else
            (some false, (ds1, dt1))
        | none => eqGo ds1 dt1 rest ((self_root, other_root) :: map)

/-- `PartialEq::eq` for `DisjointSet` (both operands are mutated through
interior mutability by the root resolutions, so both output states are
returned). -/
def DisjointSet.eq (ds dt : DisjointSet) : Option Bool × (DisjointSet × DisjointSet) :=
  if ds.len ≠ dt.len then
    (some false, (ds, dt))
  else
    eqGo ds dt (List.range ds.len) []

/-- Pure, non-mutating root resolution, used only to state specifications:
follow parent pointers until a self-loop, with fuel. -/
def findRoot : Nat → List Nat → Nat → Option Nat
  | 0, _, _ => none
  | fuel + 1, p, i =>
    match p[i]? with
    | none => none
    | some pi => if pi = i then some i else findRoot fuel p pi

/-- The root of `i` in parent list `p`, as a total function (defaults to `i`
itself when resolution fails, which cannot happen for in-bounds `i` on
well-formed states). -/
def rootD (p : List Nat) (i : Nat) : Nat :=
  (findRoot p.length p i).getD i

/-- Parent pointers are in bounds. -/
def ParentsInBounds (p : List Nat) : Prop :=
  ∀ i, i < p.length → p.getD i 0 < p.length

/-- The rank strictly increases along the parent pointer of every non-root
element.  This implies acyclicity and hence termination of root
resolution. -/
def RanksIncrease (p ranks : List Nat) : Prop :=
  ∀ i, i < p.length → p.getD i 0 ≠ i →
    ranks.getD i 0 < ranks.getD (p.getD i 0) 0

/-- The forest invariant: ranks and parents have equal length, parent
pointers are in bounds, and the rank strictly increases along the pointer of
every non-root element. -/
def WF (ds : DisjointSet) : Prop :=
  ds.ranks.length = ds.parents.length ∧
  ParentsInBounds ds.parents ∧
  RanksIncrease ds.parents ds.ranks

instance : DecidablePred WF := by
  unfold WF ParentsInBounds RanksIncrease
  infer_instance

/-- Measure for the termination of root resolution: the number of elements
whose rank strictly exceeds the rank of `i`. -/
def rankAbove (ranks : List Nat) (n i : Nat) : Nat :=
  ((Finset.range n).filter (fun j => ranks.getD i 0 < ranks.getD j 0)).card

/-- Helper for stating the `sets` specification: the distinct root values
among indices below `k`, in order of first appearance. -/
def firstSeen (R : Nat → Nat) : Nat → List Nat
  | 0 => []
  | k + 1 =>
    if R k ∈ firstSeen R k then firstSeen R k else firstSeen R k ++ [R k]

/-- Helper for stating the `sets` specification: the ascending list of
indices below `k` whose root is `r`. -/
def groupOf (R : Nat → Nat) (k r : Nat) : List Nat :=
  (List.range k).filter (fun j => R j = r)

/-- The groups produced by `sets` after processing the indices below `k`:
one group per distinct root in first-appearance order. -/
def buildSets (R : Nat → Nat) (k : Nat) : List (List Nat) :=
  (firstSeen R k).map (fun r => groupOf R k r)

/-- The root-to-position map of the `sets` loop agrees with the list `D` of
roots in first-appearance order. -/
def MapInv (map : List (Nat × Nat)) (D : List Nat) : Prop :=
  ∀ r id, lookupNat map r = some id ↔ (id < D.length ∧ D.getD id 0 = r)

/-- Engine states reachable by sequences of the public operations
(construction, `join`, `is_joined`, `root_of`, `add_singleton`, `sets`,
`clear`, equality).  The state-mutating queries contribute their output
states; `eq` mutates both operands through interior mutability. -/
inductive Reachable : DisjointSet → Prop
  | new : Reachable DisjointSet.new
  | with_len (n : Nat) : Reachable (DisjointSet.with_len n)
  | with_capacity (c : Nat) : Reachable (DisjointSet.with_capacity c)
  | clear {ds : DisjointSet} : Reachable ds → Reachable ds.clear
  | add_singleton {ds : DisjointSet} : Reachable ds → Reachable (ds.add_singleton).2
  | join {ds : DisjointSet} (a b : Nat) : Reachable ds → Reachable (ds.join a b).2
  | root_of {ds : DisjointSet} (i : Nat) : Reachable ds → Reachable (ds.root_of i).2
  | is_joined {ds : DisjointSet} (a b : Nat) : Reachable ds →
      Reachable (ds.is_joined a b).2
  | sets {ds : DisjointSet} : Reachable ds → Reachable ds.sets.2
  | eq_left {ds dt : DisjointSet} : Reachable ds → Reachable dt →
      Reachable (ds.eq dt).2.1
  | eq_right {ds dt : DisjointSet} : Reachable ds → Reachable dt →
      Reachable (ds.eq dt).2.2

/-- The value container: a vector of payloads plus an engine over the same
index range.  Mirrors `DisjointSetVec<T> { data: Vec<T>, indices: DisjointSet }`. -/
structure DisjointSetVec (T : Type) where
  data : List T
  indices : DisjointSet

/-- The `From` impl: build from a vector of values, with a fresh engine of
the same length. -/
def DisjointSetVec.fromList {T : Type} (value : List T) : DisjointSetVec T :=
  { data := value, indices := DisjointSet.with_len value.length }

/-- `DisjointSetVec::new`. -/
def DisjointSetVec.new (T : Type) : DisjointSetVec T :=
  { data := [], indices := DisjointSet.new }

/-- `DisjointSetVec::with_capacity`. -/
def DisjointSetVec.with_capacity (T : Type) (capacity : Nat) : DisjointSetVec T :=
  { data := [], indices := DisjointSet.with_capacity capacity }

/-- `DisjointSetVec::values`. -/
def DisjointSetVec.values {T : Type} (dsv : DisjointSetVec T) : List T :=
  dsv.data

/-- `DisjointSetVec::len`. -/
def DisjointSetVec.len {T : Type} (dsv : DisjointSetVec T) : Nat :=
  dsv.data.length

/-- `DisjointSetVec::get`: `self.data.get(index)`, total by construction. -/
def DisjointSetVec.get (dsv : DisjointSetVec T) (index : Nat) : Option T :=
  dsv.data[index]?

/-- `DisjointSetVec::is_empty`. -/
def DisjointSetVec.is_empty {T : Type} (dsv : DisjointSetVec T) : Bool :=
  dsv.data.isEmpty

/-- `DisjointSetVec::iter`: yields the values in index order. -/
def DisjointSetVec.iter {T : Type} (dsv : DisjointSetVec T) : List T :=
  dsv.data

/-- `DisjointSetVec::push`: append the value and a fresh singleton index. -/
def DisjointSetVec.push {T : Type} (dsv : DisjointSetVec T) (value : T) :
    DisjointSetVec T :=
  { data := dsv.data ++ [value], indices := (dsv.indices.add_singleton).2 }

/-- `DisjointSetVec::is_joined`: delegate to the engine. -/
def DisjointSetVec.is_joined {T : Type} (dsv : DisjointSetVec T)
    (first_index second_index : Nat) : Option Bool × DisjointSetVec T :=
  match dsv.indices.is_joined first_index second_index with
  | (res, d) => (res, { dsv with indices := d })

/-- `DisjointSetVec::join`: delegate to the engine. -/
def DisjointSetVec.join {T : Type} (dsv : DisjointSetVec T)
    (first_index second_index : Nat) : Option Bool × DisjointSetVec T :=
  match dsv.indices.join first_index second_index with
  | (res, d) => (res, { dsv with indices := d })

/-- The `IndexMut` write `container[index] = value`: panics (`none`) when the
index is out of bounds. -/
def DisjointSetVec.index_set {T : Type} (dsv : DisjointSetVec T) (index : Nat)
    (value : T) : Option (DisjointSetVec T) :=
  if index < dsv.data.length then
    some { dsv with data := dsv.data.set index value }
  else
    none

/-- The net effect of an `iter_mut` pass updating every value in place. -/
def DisjointSetVec.iter_mut_map {T : Type} (dsv : DisjointSetVec T) (f : T → T) :
    DisjointSetVec T :=
  { dsv with data := dsv.data.map f }

/-- Container states reachable by sequences of the public operations. -/
inductive ReachableV {T : Type} : DisjointSetVec T → Prop
  | new : ReachableV (DisjointSetVec.new T)
  | with_capacity (c : Nat) : ReachableV (DisjointSetVec.with_capacity T c)
  | fromList (value : List T) : ReachableV (DisjointSetVec.fromList value)
  | push {dsv : DisjointSetVec T} (v : T) : ReachableV dsv → ReachableV (dsv.push v)
  | join {dsv : DisjointSetVec T} (a b : Nat) : ReachableV dsv →
      ReachableV (dsv.join a b).2
  | is_joined {dsv : DisjointSetVec T} (a b : Nat) : ReachableV dsv →
      ReachableV (dsv.is_joined a b).2
  | index_set {dsv dsv2 : DisjointSetVec T} {i : Nat} {v : T} : ReachableV dsv →
      dsv.index_set i v = some dsv2 → ReachableV dsv2
  | iter_mut {dsv : DisjointSetVec T} (f : T → T) : ReachableV dsv →
      ReachableV (dsv.iter_mut_map f)

/-! ### Basic list-access helpers -/

theorem getElem?_eq_getD {α : Type} {p : List α} {d : α} {i : Nat}
    (h : i < p.length) : p[i]? = some (p.getD i d) := by
  simp [List.getD_eq_getElem?_getD, List.getElem?_eq_some_iff, h]

theorem getD_set_of_lt {α : Type} {p : List α} {d v : α} {i j : Nat}
    (h : i < p.length) :
    (p.set i v).getD j d = if i = j then v else p.getD j d := by
  by_cases hij : i = j
  · subst hij
    simp [List.getD_eq_getElem?_getD, List.getElem?_set, h]
  · simp [List.getD_eq_getElem?_getD, List.getElem?_set, hij]

theorem getD_append_of_lt {α : Type} {p q : List α} {d : α} {i : Nat}
    (h : i < p.length) : (p ++ q).getD i d = p.getD i d := by
  simp [List.getD_eq_getElem?_getD, List.getElem?_append_left h]

theorem getD_concat_len {α : Type} {p : List α} {d v : α} :
    (p ++ [v]).getD p.length d = v := by
  simp [List.getD_eq_getElem?_getD, List.getElem?_concat_length]

/-! ### Lemmas about pure root resolution (`findRoot`) -/

theorem findRoot_mono {p : List Nat} :
    ∀ {fuel fuel' i r : Nat}, fuel ≤ fuel' →
      findRoot fuel p i = some r → findRoot fuel' p i = some r := by
  intro fuel
  induction fuel with
  | zero => intro fuel' i r _ h; simp [findRoot] at h
  | succ fuel ih =>
    intro fuel' i r hle h
    cases fuel' with
    | zero => omega
    | succ fuel' =>
      cases hp : p[i]? with
      | none => simp [findRoot, hp] at h
      | some pi =>
        simp only [findRoot, hp] at h ⊢
        by_cases hpi : pi = i
        · simpa [hpi] using h
        · rw [if_neg hpi] at h ⊢
          exact ih (Nat.le_of_succ_le_succ hle) h

theorem findRoot_isRoot {p : List Nat} :
    ∀ {fuel i r : Nat}, findRoot fuel p i = some r → p[r]? = some r := by
  intro fuel
  induction fuel with
  | zero => intro i r h; simp [findRoot] at h
  | succ fuel ih =>
    intro i r h
    cases hp : p[i]? with
    | none => simp [findRoot, hp] at h
    | some pi =>
      simp only [findRoot, hp] at h
      by_cases hpi : pi = i
      · rw [if_pos hpi] at h
        cases h
        rw [hp, hpi]
      · rw [if_neg hpi] at h
        exact ih h

theorem findRoot_lt {p : List Nat} {fuel i r : Nat}
    (h : findRoot fuel p i = some r) : r < p.length := by
  have := findRoot_isRoot h
  rw [List.getElem?_eq_some_iff] at this
  exact this.1

theorem findRoot_of_root {p : List Nat} {fuel i : Nat} (h : p[i]? = some i) :
    findRoot (fuel + 1) p i = some i := by
  rw [findRoot, h]
  simp

theorem findRoot_step {p : List Nat} {fuel i pi : Nat} (h : p[i]? = some pi)
    (hne : pi ≠ i) : findRoot (fuel + 1) p i = findRoot fuel p pi := by
  simp only [findRoot, h]
  rw [if_neg hne]

/-! ### Termination of root resolution on well-formed states -/

theorem rankAbove_lt_of_rank_lt {ranks : List Nat} {n i pi : Nat}
    (hpi : pi < n) (hrk : ranks.getD i 0 < ranks.getD pi 0) :
    rankAbove ranks n pi < rankAbove ranks n i := by
  apply Finset.card_lt_card
  rw [Finset.ssubset_iff_of_subset]
  · refine ⟨pi, ?_, ?_⟩
    · rw [Finset.mem_filter, Finset.mem_range]
      exact ⟨hpi, hrk⟩
    · rw [Finset.mem_filter]
      intro hmem
      exact lt_irrefl _ hmem.2
  · intro j hj
    rw [Finset.mem_filter, Finset.mem_range] at hj ⊢
    exact ⟨hj.1, lt_trans hrk hj.2⟩

theorem rankAbove_lt_len {ranks : List Nat} {n i : Nat} (hi : i < n) :
    rankAbove ranks n i < n := by
  have hsub : ((Finset.range n).filter (fun j => ranks.getD i 0 < ranks.getD j 0)) ⊆
      (Finset.range n).erase i := by
    intro j hj
    simp only [Finset.mem_filter, Finset.mem_range] at hj
    rw [Finset.mem_erase]
    refine ⟨?_, by simp [hj.1]⟩
    intro hji
    subst hji
    exact lt_irrefl _ hj.2
  have h2 := Finset.card_le_card hsub
  rw [Finset.card_erase_of_mem (by simp [hi]), Finset.card_range] at h2
  unfold rankAbove
  omega

theorem findRoot_total_aux {p ranks : List Nat} (hb : ParentsInBounds p)
    (hrk : RanksIncrease p ranks) :
    ∀ fuel i, i < p.length → rankAbove ranks p.length i < fuel →
      ∃ r, findRoot fuel p i = some r := by
  intro fuel
  induction fuel with
  | zero => intro i _ h; omega
  | succ fuel ih =>
    intro i hi hmu
    have hp : p[i]? = some (p.getD i 0) := getElem?_eq_getD hi
    by_cases hroot : p.getD i 0 = i
    · exact ⟨i, by rw [hroot] at hp; exact findRoot_of_root hp⟩
    · have hpil : p.getD i 0 < p.length := hb i hi
      have hlt : rankAbove ranks p.length (p.getD i 0) < rankAbove ranks p.length i :=
        rankAbove_lt_of_rank_lt hpil (hrk i hi hroot)
      obtain ⟨r, hr⟩ := ih (p.getD i 0) hpil (by omega)
      exact ⟨r, by rw [findRoot_step hp hroot]; exact hr⟩

theorem findRoot_total {p ranks : List Nat} (hb : ParentsInBounds p)
    (hrk : RanksIncrease p ranks) {i : Nat} (hi : i < p.length) :
    ∃ r, findRoot p.length p i = some r :=
  findRoot_total_aux hb hrk p.length i hi (rankAbove_lt_len hi)

/-! ### Lemmas about `rootD` -/

theorem rootD_eq_of_findRoot {p : List Nat} {i r : Nat}
    (h : findRoot p.length p i = some r) : rootD p i = r := by
  rw [rootD, h]
  rfl

theorem findRoot_len_eq {p ranks : List Nat} (hb : ParentsInBounds p)
    (hrk : RanksIncrease p ranks) {i : Nat} (hi : i < p.length) :
    findRoot p.length p i = some (rootD p i) := by
  obtain ⟨r, hr⟩ := findRoot_total hb hrk hi
  rw [hr, rootD_eq_of_findRoot hr]

theorem rootD_of_root {p : List Nat} {r : Nat} (h : p[r]? = some r) :
    rootD p r = r := by
  have hr : r < p.length := (List.getElem?_eq_some_iff.mp h).1
  have hlen : p.length = (p.length - 1) + 1 := by omega
  apply rootD_eq_of_findRoot
  rw [hlen]
  exact findRoot_of_root h

theorem rootD_of_ge {p : List Nat} {i : Nat} (h : p.length ≤ i) :
    rootD p i = i := by
  rw [rootD]
  cases hl : p.length with
  | zero => rfl
  | succ m =>
    simp [findRoot, List.getElem?_eq_none h]

theorem rootD_isRoot {p ranks : List Nat} (hb : ParentsInBounds p)
    (hrk : RanksIncrease p ranks) {i : Nat} (hi : i < p.length) :
    p.getD (rootD p i) 0 = rootD p i ∧ rootD p i < p.length := by
  have h := findRoot_len_eq hb hrk hi
  have hroot := findRoot_isRoot h
  have hlt : rootD p i < p.length := findRoot_lt h
  refine ⟨?_, hlt⟩
  have := getElem?_eq_getD (p := p) (d := 0) hlt
  rw [this] at hroot
  exact (Option.some_inj.mp hroot)

theorem rootD_lt {p ranks : List Nat} (hb : ParentsInBounds p)
    (hrk : RanksIncrease p ranks) {i : Nat} (hi : i < p.length) :
    rootD p i < p.length :=
  (rootD_isRoot hb hrk hi).2

theorem rootD_step {p ranks : List Nat} (hb : ParentsInBounds p)
    (hrk : RanksIncrease p ranks) {i : Nat} (hi : i < p.length)
    (hnr : p.getD i 0 ≠ i) : rootD p i = rootD p (p.getD i 0) := by
  have h := findRoot_len_eq hb hrk hi
  have hlen : p.length = (p.length - 1) + 1 := by omega
  rw [hlen, findRoot_step (getElem?_eq_getD hi) hnr] at h
  have h2 : findRoot p.length p (p.getD i 0) = some (rootD p i) :=
    findRoot_mono (by omega) h
  exact (rootD_eq_of_findRoot h2).symm

theorem rootD_parent {p ranks : List Nat} (hb : ParentsInBounds p)
    (hrk : RanksIncrease p ranks) {i : Nat} (hi : i < p.length) :
    rootD p (p.getD i 0) = rootD p i := by
  by_cases hroot : p.getD i 0 = i
  · rw [hroot]
  · exact (rootD_step hb hrk hi hroot).symm

/-! ### Path halving preserves roots and the invariant -/

theorem bounds_set {p : List Nat} (hb : ParentsInBounds p) {child g : Nat}
    (hc : child < p.length) (hgl : g < p.length) :
    ParentsInBounds (p.set child g) := by
  intro i hi
  rw [List.length_set] at hi ⊢
  rw [getD_set_of_lt hc]
  by_cases hci : child = i
  · rw [if_pos hci]; exact hgl
  · rw [if_neg hci]; exact hb i hi

theorem ranks_set {p ranks : List Nat} (hrk : RanksIncrease p ranks)
    {child g : Nat} (hc : child < p.length)
    (hrcg : ranks.getD child 0 < ranks.getD g 0) :
    RanksIncrease (p.set child g) ranks := by
  intro i hi hnr
  rw [List.length_set] at hi
  rw [getD_set_of_lt hc] at hnr ⊢
  by_cases hci : child = i
  · rw [if_pos hci] at hnr ⊢
    rw [← hci]
    exact hrcg
  · rw [if_neg hci] at hnr ⊢
    exact hrk i hi hnr

theorem findRoot_set_halve {p ranks : List Nat} (hb : ParentsInBounds p)
    (hrk : RanksIncrease p ranks) {child par g : Nat}
    (hc : child < p.length) (hpar : p.getD child 0 = par) (hne : par ≠ child)
    (hg : p.getD par 0 = g) :
    ∀ fuel j r, findRoot fuel p j = some r →
      findRoot fuel (p.set child g) j = some r := by
  have hparl : par < p.length := by rw [← hpar]; exact hb child hc
  have hrcpar : ranks.getD child 0 < ranks.getD par 0 := by
    have := hrk child hc (by rw [hpar]; exact hne)
    rwa [hpar] at this
  have hrcg : ranks.getD child 0 < ranks.getD g 0 := by
    by_cases hgp : g = par
    · rw [hgp]; exact hrcpar
    · have : ranks.getD par 0 < ranks.getD g 0 := by
        have := hrk par hparl (by rw [hg]; exact hgp)
        rwa [hg] at this
      omega
  have hgc : g ≠ child := by
    intro hx
    rw [hx] at hrcg
    exact lt_irrefl _ hrcg
  intro fuel
  induction fuel with
  | zero => intro j r h; simp [findRoot] at h
  | succ fuel ih =>
    intro j r h
    cases hpj : p[j]? with
    | none => simp [findRoot, hpj] at h
    | some pj =>
      simp only [findRoot, hpj] at h
      by_cases hroot : pj = j
      · rw [if_pos hroot] at h
        cases h
        have hjc : j ≠ child := by
          intro hx
          rw [hx, getElem?_eq_getD hc] at hpj
          have hpj2 : p.getD child 0 = pj := Option.some_inj.mp hpj
          rw [hpar] at hpj2
          exact hne (by rw [hpj2, hroot, hx])
        apply findRoot_of_root
        rw [List.getElem?_set_ne (fun hx => hjc hx.symm)]
        rw [hpj, hroot]
      · rw [if_neg hroot] at h
        by_cases hjc : j = child
        · subst hjc
          have hpj2 : pj = par := by
            rw [getElem?_eq_getD (d := 0) hc] at hpj
            have := Option.some_inj.mp hpj
            rw [hpar] at this
            exact this.symm
          rw [hpj2] at h
          have hset : (p.set j g)[j]? = some g := by
            rw [List.getElem?_set_self hc]
          have hstep : findRoot (fuel + 1) (p.set j g) j = findRoot fuel (p.set j g) g := by
            exact findRoot_step hset hgc
          rw [hstep]
          by_cases hgp : g = par
          · exact ih g r (by rw [hgp]; exact h)
          · cases fuel with
            | zero => simp [findRoot] at h
            | succ m =>
              have hppar : p[par]? = some g := by
                rw [getElem?_eq_getD hparl, hg]
              rw [findRoot_step hppar hgp] at h
              have h2 : findRoot (m + 1) p g = some r := findRoot_mono (by omega) h
              exact ih g r h2
        · have hset : (p.set child g)[j]? = some pj := by
            rw [List.getElem?_set_ne (fun hx => hjc hx.symm)]
            exact hpj
          rw [findRoot_step hset hroot]
          exact ih pj r h

theorem rootD_set_halve {p ranks : List Nat} (hb : ParentsInBounds p)
    (hrk : RanksIncrease p ranks) {child par g : Nat}
    (hc : child < p.length) (hpar : p.getD child 0 = par) (hne : par ≠ child)
    (hg : p.getD par 0 = g) :
    ∀ j, rootD (p.set child g) j = rootD p j := by
  intro j
  by_cases hj : j < p.length
  · obtain ⟨r, hr⟩ := findRoot_total hb hrk hj
    have hr2 := findRoot_set_halve hb hrk hc hpar hne hg p.length j r hr
    have hlen : (p.set child g).length = p.length := List.length_set ..
    rw [rootD_eq_of_findRoot hr, rootD_eq_of_findRoot (by rw [hlen]; exact hr2)]
  · have hlen : (p.set child g).length = p.length := List.length_set ..
    rw [rootD_of_ge (by rw [hlen]; omega), rootD_of_ge (by omega)]

/-! ### Specification of the compressing loop and of `root_of` -/

theorem rootOfLoop_spec {ranks : List Nat} :
    ∀ (fuel : Nat) (p : List Nat) (child parent : Nat),
      ParentsInBounds p → RanksIncrease p ranks →
      child < p.length → p.getD child 0 = parent → parent ≠ child →
      rankAbove ranks p.length parent < fuel →
      ∃ q r, rootOfLoop fuel p child parent = some (q, r) ∧
        q.length = p.length ∧
        ParentsInBounds q ∧ RanksIncrease q ranks ∧
        (∀ j, rootD q j = rootD p j) ∧
        r = rootD p child := by
  intro fuel
  induction fuel with
  | zero => intro p child parent _ _ _ _ _ hmu; omega
  | succ fuel ih =>
    intro p child parent hb hrk hc hpar hne hmu
    have hparl : parent < p.length := by rw [← hpar]; exact hb child hc
    have hp : p[parent]? = some (p.getD parent 0) := getElem?_eq_getD hparl
    have hstep : rootD p child = rootD p parent := by
      have := rootD_step hb hrk hc (by rw [hpar]; exact hne)
      rwa [hpar] at this
    by_cases hg : p.getD parent 0 = parent
    · refine ⟨p, parent, ?_, rfl, hb, hrk, fun j => rfl, ?_⟩
      · simp only [rootOfLoop, hp]
        rw [if_pos hg.symm]
      · rw [hstep]
        exact (rootD_of_root (by rw [hp, hg])).symm
    · have hgl : p.getD parent 0 < p.length := hb parent hparl
      have hrpg : ranks.getD parent 0 < ranks.getD (p.getD parent 0) 0 :=
        hrk parent hparl hg
      have hmug : rankAbove ranks p.length (p.getD parent 0) <
          rankAbove ranks p.length parent :=
        rankAbove_lt_of_rank_lt hgl hrpg
      have hb1 : ParentsInBounds (p.set child (p.getD parent 0)) :=
        bounds_set hb hc hgl
      have hrk1 : RanksIncrease (p.set child (p.getD parent 0)) ranks := by
        apply ranks_set hrk hc
        have h1 : ranks.getD child 0 < ranks.getD parent 0 := by
          have := hrk child hc (by rw [hpar]; exact hne)
          rwa [hpar] at this
        omega
      have hlen1 : (p.set child (p.getD parent 0)).length = p.length :=
        List.length_set ..
      have hpar1 : (p.set child (p.getD parent 0)).getD parent 0 = p.getD parent 0 := by
        rw [getD_set_of_lt hc, if_neg (fun hx => hne hx.symm)]
      obtain ⟨q, r, hloop, hqlen, hbq, hrkq, hroots, hr⟩ :=
        ih (p.set child (p.getD parent 0)) parent (p.getD parent 0) hb1 hrk1
          (by rw [hlen1]; exact hparl) hpar1 hg
          (by rw [hlen1]; omega)
      have hhalve := rootD_set_halve hb hrk hc hpar hne
        (rfl : p.getD parent 0 = p.getD parent 0)
      refine ⟨q, r, ?_, by rw [hqlen, hlen1], hbq, hrkq, ?_, ?_⟩
      · simp only [rootOfLoop, hp]
        rw [if_neg (fun hx => hg hx.symm)]
        exact hloop
      · intro j
        rw [hroots j, hhalve j]
      · rw [hr, hhalve parent, hstep]

theorem root_of_oob {ds : DisjointSet} {i : Nat} (h : ds.parents.length ≤ i) :
    ds.root_of i = (none, ds) := by
  simp only [DisjointSet.root_of, List.getElem?_eq_none h]

theorem root_of_spec {ds : DisjointSet} (h : WF ds) {child : Nat}
    (hc : child < ds.parents.length) :
    ∃ r ds', ds.root_of child = (some r, ds') ∧
      ds'.ranks = ds.ranks ∧ ds'.parents.length = ds.parents.length ∧ WF ds' ∧
      (∀ j, rootD ds'.parents j = rootD ds.parents j) ∧
      r = rootD ds.parents child := by
  obtain ⟨hlen, hb, hrk⟩ := h
  have hp : ds.parents[child]? = some (ds.parents.getD child 0) := getElem?_eq_getD hc
  by_cases hroot : child = ds.parents.getD child 0
  · refine ⟨child, ds, ?_, rfl, rfl, ⟨hlen, hb, hrk⟩, fun j => rfl, ?_⟩
    · simp only [DisjointSet.root_of, hp]
      rw [if_pos hroot]
    · exact (rootD_of_root (by rw [hp, ← hroot])).symm
  · obtain ⟨q, r, hloop, hqlen, hbq, hrkq, hroots, hr⟩ :=
      rootOfLoop_spec ds.parents.length ds.parents child (ds.parents.getD child 0)
        hb hrk hc rfl (fun hx => hroot hx.symm)
        (rankAbove_lt_len (hb child hc))
    refine ⟨r, ⟨q, ds.ranks⟩, ?_, rfl, hqlen, ⟨by rw [hqlen]; exact hlen, hbq, hrkq⟩,
      hroots, hr⟩
    simp only [DisjointSet.root_of, hp]
    rw [if_neg hroot, hloop]

/-! ### Unconditional preservation facts and the `is_joined` spec -/

theorem rootOfLoop_length :
    ∀ {fuel : Nat} {p : List Nat} {child parent : Nat} {q : List Nat} {r : Nat},
      rootOfLoop fuel p child parent = some (q, r) → q.length = p.length := by
  intro fuel
  induction fuel with
  | zero => intro p child parent q r h; simp [rootOfLoop] at h
  | succ fuel ih =>
    intro p child parent q r h
    cases hp : p[parent]? with
    | none => simp [rootOfLoop, hp] at h
    | some g =>
      simp only [rootOfLoop, hp] at h
      by_cases hpg : parent = g
      · rw [if_pos hpg] at h
        simp only [Option.some_inj, Prod.mk.injEq] at h
        rw [← h.1]
      · rw [if_neg hpg] at h
        have := ih h
        rw [this, List.length_set]

theorem root_of_parents_length (ds : DisjointSet) (i : Nat) :
    (ds.root_of i).2.parents.length = ds.parents.length := by
  cases hp : ds.parents[i]? with
  | none => simp [DisjointSet.root_of, hp]
  | some parent =>
    simp only [DisjointSet.root_of, hp]
    by_cases hip : i = parent
    · rw [if_pos hip]
    · rw [if_neg hip]
      cases hl : rootOfLoop ds.parents.length ds.parents i parent with
      | none => rfl
      | some pr =>
        obtain ⟨q, r⟩ := pr
        exact rootOfLoop_length hl

theorem root_of_ranks (ds : DisjointSet) (i : Nat) :
    (ds.root_of i).2.ranks = ds.ranks := by
  cases hp : ds.parents[i]? with
  | none => simp [DisjointSet.root_of, hp]
  | some parent =>
    simp only [DisjointSet.root_of, hp]
    by_cases hip : i = parent
    · rw [if_pos hip]
    · rw [if_neg hip]
      cases hl : rootOfLoop ds.parents.length ds.parents i parent with
      | none => rfl
      | some pr =>
        obtain ⟨q, r⟩ := pr
        rfl

theorem root_of_wf {ds : DisjointSet} (h : WF ds) (i : Nat) :
    WF (ds.root_of i).2 := by
  by_cases hi : i < ds.parents.length
  · obtain ⟨r, ds', heq, _, _, hw, _, _⟩ := root_of_spec h hi
    rw [heq]
    exact hw
  · rw [root_of_oob (by omega)]
    exact h

theorem is_joined_spec {ds : DisjointSet} (h : WF ds) {a b : Nat}
    (ha : a < ds.parents.length) (hb : b < ds.parents.length) :
    ∃ ds2, ds.is_joined a b =
        (some (decide (rootD ds.parents a = rootD ds.parents b)), ds2) ∧
      ds2.ranks = ds.ranks ∧ ds2.parents.length = ds.parents.length ∧ WF ds2 ∧
      (∀ j, rootD ds2.parents j = rootD ds.parents j) := by
  obtain ⟨ra, ds1, h1, hr1, hl1, hw1, hroots1, hra⟩ := root_of_spec h ha
  obtain ⟨rb, ds2, h2, hr2, hl2, hw2, hroots2, hrb⟩ :=
    root_of_spec hw1 (show b < ds1.parents.length by rw [hl1]; exact hb)
  refine ⟨ds2, ?_, by rw [hr2, hr1], by rw [hl2, hl1], hw2,
    fun j => by rw [hroots2 j, hroots1 j]⟩
  simp only [DisjointSet.is_joined, h1, h2]
  rw [hra, hrb, hroots1 b]

/-! ### Re-parenting one root under another (the merge step of `join`) -/

theorem findRoot_set_root {p : List Nat} {ra rb : Nat}
    (hra : p[ra]? = some ra) (hrb : p[rb]? = some rb)
    (hrbl : rb < p.length) (hne : ra ≠ rb) :
    ∀ fuel j r, findRoot fuel p j = some r →
      findRoot (fuel + 1) (p.set rb ra) j = some (if r = rb then ra else r) := by
  intro fuel
  induction fuel with
  | zero => intro j r h; simp [findRoot] at h
  | succ fuel ih =>
    intro j r h
    cases hpj : p[j]? with
    | none => simp [findRoot, hpj] at h
    | some pj =>
      simp only [findRoot, hpj] at h
      by_cases hroot : pj = j
      · rw [if_pos hroot] at h
        cases h
        by_cases hjrb : j = rb
        · subst hjrb
          have hset : (p.set j ra)[j]? = some ra := List.getElem?_set_self hrbl
          rw [findRoot_step hset hne]
          rw [if_pos rfl]
          have hsra : (p.set j ra)[ra]? = some ra := by
            rw [List.getElem?_set_ne (fun hx => hne hx.symm)]
            exact hra
          exact findRoot_of_root hsra
        · rw [if_neg hjrb]
          apply findRoot_of_root
          rw [List.getElem?_set_ne (fun hx => hjrb hx.symm)]
          rw [hpj, hroot]
      · rw [if_neg hroot] at h
        have hjrb : j ≠ rb := by
          intro hx
          rw [hx] at hpj
          rw [hrb] at hpj
          have : rb = pj := Option.some_inj.mp hpj
          rw [hx] at hroot
          exact hroot this.symm
        have hset : (p.set rb ra)[j]? = some pj := by
          rw [List.getElem?_set_ne (fun hx => hjrb hx.symm)]
          exact hpj
        rw [findRoot_step hset hroot]
        exact ih pj r h

theorem wf_reparent {p ranks ranks2 : List Nat} (hb : ParentsInBounds p)
    (hrk : RanksIncrease p ranks) {ra rb : Nat}
    (hral : ra < p.length) (hrbl : rb < p.length)
    (hra : p.getD ra 0 = ra) (hrb : p.getD rb 0 = rb) (hne : ra ≠ rb)
    (hkeep : ∀ i, i ≠ ra → ranks2.getD i 0 = ranks.getD i 0)
    (hmono : ranks.getD ra 0 ≤ ranks2.getD ra 0)
    (hgt : ranks.getD rb 0 < ranks2.getD ra 0) :
    ParentsInBounds (p.set rb ra) ∧ RanksIncrease (p.set rb ra) ranks2 := by
  refine ⟨bounds_set hb hrbl hral, ?_⟩
  intro i hi hnr
  rw [List.length_set] at hi
  rw [getD_set_of_lt hrbl] at hnr ⊢
  by_cases hirb : rb = i
  · rw [if_pos hirb] at hnr ⊢
    rw [hkeep i (by rw [← hirb]; exact fun hx => hne hx.symm)]
    rw [← hirb]
    exact hgt
  · rw [if_neg hirb] at hnr ⊢
    have hira : i ≠ ra := by
      intro hx
      rw [hx] at hnr
      exact hnr hra
    rw [hkeep i hira]
    have hbase := hrk i hi hnr
    by_cases hpira : p.getD i 0 = ra
    · rw [hpira]
      rw [hpira] at hbase
      omega
    · rw [hkeep _ hpira]
      exact hbase

theorem rootD_reparent {p ranks ranks2 : List Nat} (hb : ParentsInBounds p)
    (hrk : RanksIncrease p ranks) {ra rb : Nat}
    (hral : ra < p.length) (hrbl : rb < p.length)
    (hra : p.getD ra 0 = ra) (hrb : p.getD rb 0 = rb) (hne : ra ≠ rb)
    (hkeep : ∀ i, i ≠ ra → ranks2.getD i 0 = ranks.getD i 0)
    (hmono : ranks.getD ra 0 ≤ ranks2.getD ra 0)
    (hgt : ranks.getD rb 0 < ranks2.getD ra 0) :
    ∀ j, rootD (p.set rb ra) j = if rootD p j = rb then ra else rootD p j := by
  obtain ⟨hb2, hrk2⟩ :=
    wf_reparent hb hrk hral hrbl hra hrb hne hkeep hmono hgt
  have hlen : (p.set rb ra).length = p.length := List.length_set ..
  intro j
  by_cases hj : j < p.length
  · obtain ⟨r, hr⟩ := findRoot_total hb hrk hj
    have h2 := findRoot_set_root (by rw [getElem?_eq_getD hral, hra])
      (by rw [getElem?_eq_getD hrbl, hrb]) hrbl hne p.length j r hr
    obtain ⟨r2, hr2⟩ := findRoot_total hb2 hrk2 (show j < (p.set rb ra).length by omega)
    have h3 : findRoot (p.length + 1) (p.set rb ra) j = some r2 := by
      apply findRoot_mono (by rw [hlen]; omega) hr2
    rw [h2] at h3
    rw [rootD_eq_of_findRoot hr2, rootD_eq_of_findRoot hr]
    exact (Option.some_inj.mp h3).symm
  · rw [rootD_of_ge (by rw [hlen]; omega), rootD_of_ge (by omega)]
    rw [if_neg (by omega)]

/-! ### Specification of `join` -/

theorem join_spec_same {ds : DisjointSet} (h : WF ds) {a b : Nat}
    (ha : a < ds.parents.length) (hib : b < ds.parents.length)
    (heq : rootD ds.parents a = rootD ds.parents b) :
    ∃ ds2, ds.join a b = (some false, ds2) ∧ ds2.ranks = ds.ranks ∧
      ds2.parents.length = ds.parents.length ∧ WF ds2 ∧
      (∀ j, rootD ds2.parents j = rootD ds.parents j) := by
  have hpa := getElem?_eq_getD (p := ds.parents) (d := 0) ha
  have hpb := getElem?_eq_getD (p := ds.parents) (d := 0) hib
  by_cases hfast : ds.parents.getD a 0 = ds.parents.getD b 0
  · refine ⟨ds, ?_, rfl, rfl, h, fun j => rfl⟩
    simp only [DisjointSet.join, hpa, hpb]
    rw [if_pos hfast]
  · obtain ⟨ra, ds1, h1, hr1, hl1, hw1, hroots1, hra⟩ := root_of_spec h ha
    obtain ⟨rb, ds2, h2, hr2, hl2, hw2, hroots2, hrb⟩ :=
      root_of_spec hw1 (show b < ds1.parents.length by rw [hl1]; exact hib)
    have hrarb : ra = rb := by
      rw [hra, hrb, hroots1 b]
      exact heq
    refine ⟨ds2, ?_, by rw [hr2, hr1], by rw [hl2, hl1], hw2,
      fun j => by rw [hroots2 j, hroots1 j]⟩
    simp only [DisjointSet.join, hpa, hpb]
    rw [if_neg hfast]
    simp only [DisjointSet.slow_path, h1, h2]
    rw [if_pos hrarb]

theorem join_spec_diff {ds : DisjointSet} (h : WF ds) {a b : Nat}
    (ha : a < ds.parents.length) (hib : b < ds.parents.length)
    (hne : rootD ds.parents a ≠ rootD ds.parents b) :
    ∃ ds3, ds.join a b = (some true, ds3) ∧
      ds3.parents.length = ds.parents.length ∧ WF ds3 ∧
      (ds.ranks.getD (rootD ds.parents a) 0 < ds.ranks.getD (rootD ds.parents b) 0 →
        ds3.ranks = ds.ranks ∧
        ds3.parents.getD (rootD ds.parents a) 0 = rootD ds.parents b ∧
        (∀ j, rootD ds3.parents j =
          if rootD ds.parents j = rootD ds.parents a then rootD ds.parents b
          else rootD ds.parents j)) ∧
      (ds.ranks.getD (rootD ds.parents b) 0 < ds.ranks.getD (rootD ds.parents a) 0 →
        ds3.ranks = ds.ranks ∧
        ds3.parents.getD (rootD ds.parents b) 0 = rootD ds.parents a ∧
        (∀ j, rootD ds3.parents j =
          if rootD ds.parents j = rootD ds.parents b then rootD ds.parents a
          else rootD ds.parents j)) ∧
      (ds.ranks.getD (rootD ds.parents a) 0 = ds.ranks.getD (rootD ds.parents b) 0 →
        ds3.ranks = ds.ranks.set (rootD ds.parents a)
          (ds.ranks.getD (rootD ds.parents a) 0 + 1) ∧
        ds3.parents.getD (rootD ds.parents b) 0 = rootD ds.parents a ∧
        (∀ j, rootD ds3.parents j =
          if rootD ds.parents j = rootD ds.parents b then rootD ds.parents a
          else rootD ds.parents j)) := by
  have hpa := getElem?_eq_getD (p := ds.parents) (d := 0) ha
  have hpb := getElem?_eq_getD (p := ds.parents) (d := 0) hib
  have hfast : ds.parents.getD a 0 ≠ ds.parents.getD b 0 := by
    intro hx
    apply hne
    rw [← rootD_parent h.2.1 h.2.2 ha, hx, rootD_parent h.2.1 h.2.2 hib]
  obtain ⟨ra, ds1, h1, hr1, hl1, hw1, hroots1, hra⟩ := root_of_spec h ha
  obtain ⟨rb, ds2, h2, hr2, hl2, hw2, hroots2, hrb⟩ :=
    root_of_spec hw1 (show b < ds1.parents.length by rw [hl1]; exact hib)
  have hrb2 : rb = rootD ds.parents b := by rw [hrb, hroots1 b]
  have hrarb : ra ≠ rb := by rw [hra, hrb2]; exact hne
  have hl21 : ds2.parents.length = ds.parents.length := by rw [hl2, hl1]
  have hroots21 : ∀ j, rootD ds2.parents j = rootD ds.parents j :=
    fun j => by rw [hroots2 j, hroots1 j]
  have hrkeq : ds2.ranks = ds.ranks := by rw [hr2, hr1]
  have hral : ra < ds2.parents.length := by
    rw [hl21, hra]
    exact rootD_lt h.2.1 h.2.2 ha
  have hrbl : rb < ds2.parents.length := by
    rw [hl21, hrb2]
    exact rootD_lt h.2.1 h.2.2 hib
  have hidema : rootD ds2.parents ra = ra := by
    rw [hroots21, hra]
    apply rootD_of_root
    have := rootD_isRoot h.2.1 h.2.2 ha
    rw [getElem?_eq_getD this.2, this.1]
  have hidemb : rootD ds2.parents rb = rb := by
    rw [hroots21, hrb2]
    apply rootD_of_root
    have := rootD_isRoot h.2.1 h.2.2 hib
    rw [getElem?_eq_getD this.2, this.1]
  have hraroot : ds2.parents.getD ra 0 = ra := by
    have := rootD_isRoot hw2.2.1 hw2.2.2 hral
    rw [hidema] at this
    exact this.1
  have hrbroot : ds2.parents.getD rb 0 = rb := by
    have := rootD_isRoot hw2.2.1 hw2.2.2 hrbl
    rw [hidemb] at this
    exact this.1
  have hqb : ds2.ranks[rb]? = some (ds2.ranks.getD rb 0) :=
    getElem?_eq_getD (by rw [hw2.1]; exact hrbl)
  have hqa : ds2.ranks[ra]? = some (ds2.ranks.getD ra 0) :=
    getElem?_eq_getD (by rw [hw2.1]; exact hral)
  have hga : ds.ranks.getD (rootD ds.parents a) 0 = ds2.ranks.getD ra 0 := by
    rw [hrkeq, hra]
  have hgb : ds.ranks.getD (rootD ds.parents b) 0 = ds2.ranks.getD rb 0 := by
    rw [hrkeq, hrb2]
  simp only [DisjointSet.join, hpa, hpb]
  rw [if_neg hfast]
  simp only [DisjointSet.slow_path, h1, h2]
  rw [if_neg hrarb]
  simp only [hqb, hqa]
  by_cases hcmp : ds2.ranks.getD ra 0 < ds2.ranks.getD rb 0
  · rw [if_pos hcmp]
    have hrep := rootD_reparent hw2.2.1 hw2.2.2 hrbl hral hrbroot hraroot
      (fun hx => hrarb hx.symm) (fun i _ => rfl) le_rfl hcmp
    have hwf := wf_reparent hw2.2.1 hw2.2.2 hrbl hral hrbroot hraroot
      (fun hx => hrarb hx.symm) (fun i _ => rfl) le_rfl hcmp
    refine ⟨_, rfl, by rw [List.length_set, hl21], ⟨by rw [List.length_set]; exact hw2.1, hwf.1, hwf.2⟩, ?_, ?_, ?_⟩
    · intro _
      refine ⟨hrkeq, ?_, ?_⟩
      · show (ds2.parents.set ra rb).getD (rootD ds.parents a) 0 = rootD ds.parents b
        rw [← hra, ← hrb2, getD_set_of_lt hral, if_pos rfl]
      · intro j
        show rootD (ds2.parents.set ra rb) j = _
        rw [hrep j, hroots21 j, ← hra, ← hrb2]
    · intro hx
      rw [hga, hgb] at hx
      omega
    · intro hx
      rw [hga, hgb] at hx
      omega
  · rw [if_neg hcmp]
    by_cases htie : ds2.ranks.getD ra 0 = ds2.ranks.getD rb 0
    · rw [if_pos htie]
      have hgt : ds2.ranks.getD rb 0 <
          (ds2.ranks.set ra (ds2.ranks.getD ra 0 + 1)).getD ra 0 := by
        rw [getD_set_of_lt (by rw [hw2.1]; exact hral), if_pos rfl]
        omega
      have hkeep : ∀ i, i ≠ ra →
          (ds2.ranks.set ra (ds2.ranks.getD ra 0 + 1)).getD i 0 = ds2.ranks.getD i 0 := by
        intro i hi
        rw [getD_set_of_lt (by rw [hw2.1]; exact hral), if_neg (fun hx => hi hx.symm)]
      have hmono : ds2.ranks.getD ra 0 ≤
          (ds2.ranks.set ra (ds2.ranks.getD ra 0 + 1)).getD ra 0 := by
        rw [getD_set_of_lt (by rw [hw2.1]; exact hral), if_pos rfl]
        omega
      have hrep := rootD_reparent hw2.2.1 hw2.2.2 hral hrbl hraroot hrbroot
        hrarb hkeep hmono hgt
      have hwf := wf_reparent hw2.2.1 hw2.2.2 hral hrbl hraroot hrbroot
        hrarb hkeep hmono hgt
      refine ⟨_, rfl, by rw [List.length_set, hl21],
        ⟨by rw [List.length_set, List.length_set]; exact hw2.1, hwf.1, hwf.2⟩, ?_, ?_, ?_⟩
      · intro hx
        rw [hga, hgb] at hx
        omega
      · intro hx
        rw [hga, hgb] at hx
        omega
      · intro _
        refine ⟨?_, ?_, ?_⟩
        · show ds2.ranks.set ra (ds2.ranks.getD ra 0 + 1) = _
          rw [hrkeq, hra]
        · show (ds2.parents.set rb ra).getD (rootD ds.parents b) 0 = rootD ds.parents a
          rw [← hra, ← hrb2, getD_set_of_lt hrbl, if_pos rfl]
        · intro j
          show rootD (ds2.parents.set rb ra) j = _
          rw [hrep j, hroots21 j, ← hra, ← hrb2]
    · rw [if_neg htie]
      have hgt : ds2.ranks.getD rb 0 < ds2.ranks.getD ra 0 := by omega
      have hrep := rootD_reparent hw2.2.1 hw2.2.2 hral hrbl hraroot hrbroot
        hrarb (fun i _ => rfl) le_rfl hgt
      have hwf := wf_reparent hw2.2.1 hw2.2.2 hral hrbl hraroot hrbroot
        hrarb (fun i _ => rfl) le_rfl hgt
      refine ⟨_, rfl, by rw [List.length_set, hl21],
        ⟨by rw [List.length_set]; exact hw2.1, hwf.1, hwf.2⟩, ?_, ?_, ?_⟩
      · intro hx
        rw [hga, hgb] at hx
        omega
      · intro _
        refine ⟨hrkeq, ?_, ?_⟩
        · show (ds2.parents.set rb ra).getD (rootD ds.parents b) 0 = rootD ds.parents a
          rw [← hra, ← hrb2, getD_set_of_lt hrbl, if_pos rfl]
        · intro j
          show rootD (ds2.parents.set rb ra) j = _
          rw [hrep j, hroots21 j, ← hra, ← hrb2]
      · intro hx
        rw [hga, hgb] at hx
        omega

/-! ### Growth (`add_singleton`) and the basic construction states -/

theorem findRoot_append {p q : List Nat} :
    ∀ {fuel j r : Nat}, findRoot fuel p j = some r →
      findRoot fuel (p ++ q) j = some r := by
  intro fuel
  induction fuel with
  | zero => intro j r h; simp [findRoot] at h
  | succ fuel ih =>
    intro j r h
    cases hpj : p[j]? with
    | none => simp [findRoot, hpj] at h
    | some pj =>
      simp only [findRoot, hpj] at h
      have hj : j < p.length := (List.getElem?_eq_some_iff.mp hpj).1
      have hpj2 : (p ++ q)[j]? = some pj := by
        rw [List.getElem?_append_left hj]
        exact hpj
      simp only [findRoot, hpj2]
      by_cases hroot : pj = j
      · rwa [if_pos hroot] at h ⊢
      · rw [if_neg hroot] at h ⊢
        exact ih h

theorem rootD_append {p q ranks : List Nat} (hb : ParentsInBounds p)
    (hrk : RanksIncrease p ranks) {j : Nat} (hj : j < p.length) :
    rootD (p ++ q) j = rootD p j := by
  obtain ⟨r, hr⟩ := findRoot_total hb hrk hj
  have h2 := findRoot_append (q := q) hr
  have h3 : findRoot (p ++ q).length (p ++ q) j = some r :=
    findRoot_mono (by rw [List.length_append]; omega) h2
  rw [rootD_eq_of_findRoot hr, rootD_eq_of_findRoot h3]

theorem add_singleton_wf {ds : DisjointSet} (h : WF ds) :
    WF (ds.add_singleton).2 := by
  obtain ⟨hlen, hb, hrk⟩ := h
  refine ⟨by simp [DisjointSet.add_singleton, hlen], ?_, ?_⟩
  · intro i hi
    simp only [DisjointSet.add_singleton, List.length_append, List.length_cons,
      List.length_nil] at hi ⊢
    by_cases hilt : i < ds.parents.length
    · rw [getD_append_of_lt hilt]
      have := hb i hilt
      omega
    · have hieq : i = ds.parents.length := by omega
      subst hieq
      rw [show (DisjointSet.len ds) = ds.parents.length from rfl, getD_concat_len]
      omega
  · intro i hi hnr
    simp only [DisjointSet.add_singleton, List.length_append, List.length_cons,
      List.length_nil] at hi hnr ⊢
    by_cases hilt : i < ds.parents.length
    · rw [getD_append_of_lt hilt] at hnr ⊢
      have hpil := hb i hilt
      rw [getD_append_of_lt (by rw [hlen]; exact hilt),
        getD_append_of_lt (by rw [hlen]; exact hpil)]
      exact hrk i hilt hnr
    · have hieq : i = ds.parents.length := by omega
      subst hieq
      rw [show (DisjointSet.len ds) = ds.parents.length from rfl, getD_concat_len] at hnr
      exact absurd rfl hnr

theorem wf_with_len (n : Nat) : WF (DisjointSet.with_len n) := by
  refine ⟨by simp [DisjointSet.with_len], ?_, ?_⟩
  · intro i hi
    simp only [DisjointSet.with_len, List.length_range] at hi ⊢
    rw [List.getD_eq_getElem?_getD, List.getElem?_range hi]
    exact hi
  · intro i hi hnr
    simp only [DisjointSet.with_len, List.length_range] at hi hnr
    rw [List.getD_eq_getElem?_getD, List.getElem?_range hi] at hnr
    exact absurd rfl hnr

theorem wf_empty : WF { parents := [], ranks := [] } := by
  refine ⟨rfl, ?_, ?_⟩ <;> intro i hi <;> simp at hi

/-! ### Out-of-bounds behavior and invariant preservation of `join` -/

theorem join_oob {ds : DisjointSet} {a b : Nat}
    (h : ds.parents.length ≤ a ∨ ds.parents.length ≤ b) :
    ds.join a b = (none, ds) := by
  cases hpa : ds.parents[a]? with
  | none =>
    cases hpb : ds.parents[b]? with
    | none => simp only [DisjointSet.join, hpa, hpb]
    | some pb => simp only [DisjointSet.join, hpa, hpb]
  | some pa =>
    have halt : a < ds.parents.length := (List.getElem?_eq_some_iff.mp hpa).1
    have hbn : ds.parents[b]? = none := by
      apply List.getElem?_eq_none
      rcases h with h | h
      · omega
      · exact h
    simp only [DisjointSet.join, hpa, hbn]

theorem join_wf {ds : DisjointSet} (h : WF ds) (a b : Nat) :
    WF (ds.join a b).2 := by
  by_cases ha : a < ds.parents.length
  · by_cases hb : b < ds.parents.length
    · by_cases heq : rootD ds.parents a = rootD ds.parents b
      · obtain ⟨ds2, h2, _, _, hw, _⟩ := join_spec_same h ha hb heq
        rw [h2]
        exact hw
      · obtain ⟨ds3, h3, _, hw, _⟩ := join_spec_diff h ha hb heq
        rw [h3]
        exact hw
    · rw [join_oob (Or.inr (by omega))]
      exact h
  · rw [join_oob (Or.inl (by omega))]
    exact h

theorem join_parents_length {ds : DisjointSet} (h : WF ds) (a b : Nat) :
    (ds.join a b).2.parents.length = ds.parents.length := by
  by_cases ha : a < ds.parents.length
  · by_cases hb : b < ds.parents.length
    · by_cases heq : rootD ds.parents a = rootD ds.parents b
      · obtain ⟨ds2, h2, _, hl, _, _⟩ := join_spec_same h ha hb heq
        rw [h2]
        exact hl
      · obtain ⟨ds3, h3, hl, _⟩ := join_spec_diff h ha hb heq
        rw [h3]
        exact hl
    · rw [join_oob (Or.inr (by omega))]
  · rw [join_oob (Or.inl (by omega))]

theorem is_joined_wf {ds : DisjointSet} (h : WF ds) (a b : Nat) :
    WF (ds.is_joined a b).2 := by
  have hw1 : WF (ds.root_of a).2 := root_of_wf h a
  cases h1 : ds.root_of a with
  | mk o1 ds1 =>
    rw [h1] at hw1
    have hw2 : WF (ds1.root_of b).2 := root_of_wf hw1 b
    cases o1 with
    | none => simp only [DisjointSet.is_joined, h1]; exact hw1
    | some ra =>
      cases h2 : ds1.root_of b with
      | mk o2 ds2 =>
        rw [h2] at hw2
        cases o2 with
        | none => simp only [DisjointSet.is_joined, h1, h2]; exact hw2
        | some rb => simp only [DisjointSet.is_joined, h1, h2]; exact hw2

theorem setsGo_wf :
    ∀ (l : List Nat) {ds : DisjointSet}, WF ds →
      ∀ (result : List (List Nat)) (map : List (Nat × Nat)),
        WF (setsGo ds l result map).2 := by
  intro l
  induction l with
  | nil => intro ds h result map; exact h
  | cons i rest ih =>
    intro ds h result map
    have hw1 : WF (ds.root_of i).2 := root_of_wf h i
    cases h1 : ds.root_of i with
    | mk o1 ds1 =>
      rw [h1] at hw1
      cases o1 with
      | none => simp only [setsGo, h1]; exact hw1
      | some root =>
        cases hlk : lookupNat map root with
        | some rid => simp only [setsGo, h1, hlk]; exact ih hw1 _ _
        | none => simp only [setsGo, h1, hlk]; exact ih hw1 _ _

theorem eqGo_wf :
    ∀ (l : List Nat) {ds dt : DisjointSet}, WF ds → WF dt →
      ∀ (map : List (Nat × Nat)),
        WF (eqGo ds dt l map).2.1 ∧ WF (eqGo ds dt l map).2.2 := by
  intro l
  induction l with
  | nil => intro ds dt hs ht map; exact ⟨hs, ht⟩
  | cons i rest ih =>
    intro ds dt hs ht map
    have hw1 : WF (ds.root_of i).2 := root_of_wf hs i
    have hw2 : WF (dt.root_of i).2 := root_of_wf ht i
    cases h1 : ds.root_of i with
    | mk o1 ds1 =>
      rw [h1] at hw1
      cases o1 with
      | none => simp only [eqGo, h1]; exact ⟨hw1, ht⟩
      | some sr =>
        cases h2 : dt.root_of i with
        | mk o2 dt1 =>
          rw [h2] at hw2
          cases o2 with
          | none => simp only [eqGo, h1, h2]; exact ⟨hw1, hw2⟩
          | some tr =>
            cases hlk : lookupNat map sr with
            | some v =>
              by_cases hv : tr = v
              · simp only [eqGo, h1, h2, hlk, if_pos hv]
                exact ih hw1 hw2 _
              · simp only [eqGo, h1, h2, hlk, if_neg hv]
                exact ⟨hw1, hw2⟩
            | none =>
              simp only [eqGo, h1, h2, hlk]
              exact ih hw1 hw2 _

/-! ### Combinatorics of `firstSeen` and `groupOf` -/

theorem mem_firstSeen (R : Nat → Nat) :
    ∀ k r, r ∈ firstSeen R k ↔ ∃ j, j < k ∧ R j = r := by
  intro k
  induction k with
  | zero => intro r; simp [firstSeen]
  | succ k ih =>
    intro r
    rw [firstSeen]
    by_cases hmem : R k ∈ firstSeen R k
    · rw [if_pos hmem, ih r]
      constructor
      · rintro ⟨j, hj, hr⟩
        exact ⟨j, by omega, hr⟩
      · rintro ⟨j, hj, hr⟩
        rcases Nat.lt_or_ge j k with hjk | hjk
        · exact ⟨j, hjk, hr⟩
        · have hjeq : j = k := by omega
          rw [hjeq] at hr
          obtain ⟨j2, hj2, hr2⟩ := (ih (R k)).mp hmem
          exact ⟨j2, hj2, by rw [hr2, hr]⟩
    · rw [if_neg hmem]
      simp only [List.mem_append, List.mem_singleton]
      rw [ih r]
      constructor
      · rintro (⟨j, hj, hr⟩ | hr)
        · exact ⟨j, by omega, hr⟩
        · exact ⟨k, by omega, hr.symm⟩
      · rintro ⟨j, hj, hr⟩
        rcases Nat.lt_or_ge j k with hjk | hjk
        · exact Or.inl ⟨j, hjk, hr⟩
        · have hjeq : j = k := by omega
          rw [hjeq] at hr
          exact Or.inr hr.symm

theorem nodup_firstSeen (R : Nat → Nat) : ∀ k, (firstSeen R k).Nodup := by
  intro k
  induction k with
  | zero => simp [firstSeen]
  | succ k ih =>
    rw [firstSeen]
    by_cases hmem : R k ∈ firstSeen R k
    · rw [if_pos hmem]; exact ih
    · rw [if_neg hmem, List.nodup_append]
      refine ⟨ih, List.nodup_singleton _, ?_⟩
      intro a ha hb
      rw [List.mem_singleton] at hb
      rw [hb] at ha
      exact hmem ha

theorem mem_groupOf {R : Nat → Nat} {k r j : Nat} :
    j ∈ groupOf R k r ↔ j < k ∧ R j = r := by
  simp [groupOf, List.mem_filter, List.mem_range]

theorem groupOf_succ_self (R : Nat → Nat) (k : Nat) :
    groupOf R (k + 1) (R k) = groupOf R k (R k) ++ [k] := by
  rw [groupOf, groupOf, List.range_succ, List.filter_append]
  simp

theorem groupOf_succ_ne {R : Nat → Nat} {k r : Nat} (h : R k ≠ r) :
    groupOf R (k + 1) r = groupOf R k r := by
  rw [groupOf, groupOf, List.range_succ, List.filter_append]
  simp [h]

theorem groupOf_eq_nil {R : Nat → Nat} {k r : Nat}
    (h : ∀ j, j < k → R j ≠ r) : groupOf R k r = [] := by
  rw [groupOf, List.filter_eq_nil_iff]
  intro a ha
  rw [List.mem_range] at ha
  simp [h a ha]

theorem groupOf_pairwise (R : Nat → Nat) (k r : Nat) :
    (groupOf R k r).Pairwise (· < ·) :=
  (List.pairwise_lt_range k).filter _

theorem groupOf_nonempty {R : Nat → Nat} {k r : Nat}
    (h : r ∈ firstSeen R k) : groupOf R k r ≠ [] := by
  obtain ⟨j, hj, hr⟩ := (mem_firstSeen R k r).mp h
  intro hnil
  have hmem : j ∈ groupOf R k r := mem_groupOf.mpr ⟨hj, hr⟩
  rw [hnil] at hmem
  exact List.not_mem_nil j hmem

theorem headD_append_left {α : Type} {l l2 : List α} {d : α} (h : l ≠ []) :
    (l ++ l2).headD d = l.headD d := by
  cases l with
  | nil => exact absurd rfl h
  | cons x xs => rfl

theorem headD_mem_self {α : Type} {l : List α} {d : α} (h : l ≠ []) :
    l.headD d ∈ l := by
  cases l with
  | nil => exact absurd rfl h
  | cons x xs => simp

theorem heads_pairwise (R : Nat → Nat) :
    ∀ k, ((firstSeen R k).map (fun r => (groupOf R k r).headD 0)).Pairwise (· < ·) := by
  intro k
  induction k with
  | zero => simp [firstSeen]
  | succ k ih =>
    rw [firstSeen]
    by_cases hmem : R k ∈ firstSeen R k
    · rw [if_pos hmem]
      have hcong : ∀ r ∈ firstSeen R k,
          (groupOf R (k + 1) r).headD 0 = (groupOf R k r).headD 0 := by
        intro r hr
        by_cases hrk : R k = r
        · rw [← hrk, groupOf_succ_self]
          exact headD_append_left (groupOf_nonempty hmem)
        · rw [groupOf_succ_ne hrk]
      rw [List.map_congr_left hcong]
      exact ih
    · rw [if_neg hmem, List.map_append, List.pairwise_append]
      have hnew : groupOf R (k + 1) (R k) = [k] := by
        rw [groupOf_succ_self]
        rw [groupOf_eq_nil (fun j hj hr =>
          hmem ((mem_firstSeen R k (R k)).mpr ⟨j, hj, hr⟩))]
        rfl
      refine ⟨?_, by simp, ?_⟩
      · have hcong : ∀ r ∈ firstSeen R k,
            (groupOf R (k + 1) r).headD 0 = (groupOf R k r).headD 0 := by
          intro r hr
          have hrk : R k ≠ r := fun hx => hmem (hx ▸ hr)
          rw [groupOf_succ_ne hrk]
        rw [List.map_congr_left hcong]
        exact ih
      · intro x hx y hy
        simp only [List.map_cons, List.map_nil, List.mem_singleton] at hy
        rw [hy, hnew]
        show x < ([k] : List Nat).headD 0
        obtain ⟨r, hr, hxr⟩ := List.mem_map.mp hx
        have hrk : R k ≠ r := fun hxx => hmem (hxx ▸ hr)
        rw [groupOf_succ_ne hrk] at hxr
        have hxmem : x ∈ groupOf R k r := by
          rw [← hxr]
          exact headD_mem_self (groupOf_nonempty hr)
        have := mem_groupOf.mp hxmem
        simpa using this.1

theorem flatten_groups_perm :
    ∀ (D : List Nat) (l : List Nat) (f : Nat → Nat), D.Nodup →
      (∀ x ∈ l, f x ∈ D) →
      List.Perm ((D.map (fun r => l.filter (fun j => f j = r))).flatten) l := by
  intro D
  induction D with
  | nil =>
    intro l f _ hmem
    cases l with
    | nil => simp
    | cons x xs => exact absurd (hmem x (by simp)) (List.not_mem_nil _)
  | cons r D2 ih =>
    intro l f hnd hmem
    rw [List.map_cons, List.flatten_cons]
    have hnd2 : D2.Nodup := (List.nodup_cons.mp hnd).2
    have hrD : r ∉ D2 := (List.nodup_cons.mp hnd).1
    have hcong : ∀ r2 ∈ D2,
        l.filter (fun j => f j = r2) =
          (l.filter (fun x => !(decide (f x = r)))).filter (fun j => f j = r2) := by
      intro r2 hr2
      rw [List.filter_filter]
      apply (List.filter_congr ?_).symm
      intro a _
      by_cases hfa : f a = r2
      · have hr2r : ¬(r2 = r) := fun hx => hrD (hx ▸ hr2)
        simp [hfa, hr2r]
      · simp [hfa]
    rw [List.map_congr_left hcong]
    have hmem2 : ∀ x ∈ l.filter (fun x => !(decide (f x = r))), f x ∈ D2 := by
      intro x hx
      rw [List.mem_filter] at hx
      have hfx := hmem x hx.1
      have hfr : f x ≠ r := by simpa using hx.2
      cases List.mem_cons.mp hfx with
      | inl hh => exact absurd hh hfr
      | inr hh => exact hh
    have hperm := ih (l.filter (fun x => !(decide (f x = r)))) f hnd2 hmem2
    exact List.Perm.trans (List.Perm.append_left _ hperm) (List.filter_append_perm _ l)

/-! ### The root-to-position map of the `sets` loop -/

theorem mapInv_nil : MapInv [] [] := by
  intro r id
  constructor
  · intro h
    simp [lookupNat] at h
  · intro h
    simp at h

theorem mapInv_lookup_none {map : List (Nat × Nat)} {D : List Nat}
    (h : MapInv map D) {r : Nat} (hr : r ∉ D) : lookupNat map r = none := by
  cases hl : lookupNat map r with
  | none => rfl
  | some id =>
    obtain ⟨hid, hgd⟩ := (h r id).mp hl
    exfalso
    apply hr
    have hsome : D[id]? = some (D.getD id 0) := getElem?_eq_getD hid
    exact List.mem_iff_getElem?.mpr ⟨id, by rw [hsome, hgd]⟩

theorem mapInv_extend {map : List (Nat × Nat)} {D : List Nat} {r : Nat}
    (h : MapInv map D) (hr : r ∉ D) :
    MapInv ((r, D.length) :: map) (D ++ [r]) := by
  intro r2 id
  rw [lookupNat]
  by_cases hrr : r = r2
  · rw [if_pos hrr]
    constructor
    · intro hs
      have hid : id = D.length := (Option.some_inj.mp hs).symm
      rw [hid, List.length_append, getD_concat_len]
      exact ⟨by simp, hrr⟩
    · rintro ⟨hid, hgd⟩
      rw [List.length_append, List.length_singleton] at hid
      rcases Nat.lt_or_ge id D.length with hidlt | hidge
      · rw [getD_append_of_lt hidlt] at hgd
        exfalso
        apply hr
        have hsome : D[id]? = some (D.getD id 0) := getElem?_eq_getD hidlt
        exact List.mem_iff_getElem?.mpr ⟨id, by rw [hsome, hgd, ← hrr]⟩
      · have hideq : id = D.length := by omega
        rw [hideq]
  · rw [if_neg hrr, h r2 id]
    constructor
    · rintro ⟨hid, hgd⟩
      refine ⟨by rw [List.length_append, List.length_singleton]; omega, ?_⟩
      rw [getD_append_of_lt hid]
      exact hgd
    · rintro ⟨hid, hgd⟩
      rw [List.length_append, List.length_singleton] at hid
      rcases Nat.lt_or_ge id D.length with hidlt | hidge
      · rw [getD_append_of_lt hidlt] at hgd
        exact ⟨hidlt, hgd⟩
      · exfalso
        have hideq : id = D.length := by omega
        rw [hideq, getD_concat_len] at hgd
        exact hrr hgd

theorem getD_map_lt {D : List Nat} {f : Nat → List Nat} {id : Nat}
    (h : id < D.length) : (D.map f).getD id [] = f (D.getD id 0) := by
  have hsome : D[id]? = some (D.getD id 0) := getElem?_eq_getD h
  rw [List.getD_eq_getElem?_getD, List.getElem?_map, hsome]
  rfl

theorem map_set_eq_map {f g : Nat → List Nat} :
    ∀ {D : List Nat} {id : Nat}, D.Nodup → id < D.length →
      (∀ x ∈ D, x ≠ D.getD id 0 → g x = f x) →
      (D.map f).set id (g (D.getD id 0)) = D.map g := by
  intro D
  induction D with
  | nil => intro id _ h; simp at h
  | cons d D2 ih =>
    intro id hnd hid hcong
    have hd : d ∉ D2 := (List.nodup_cons.mp hnd).1
    cases id with
    | zero =>
      show g d :: D2.map f = g d :: D2.map g
      congr 1
      apply List.map_congr_left
      intro x hx
      have hxd : x ≠ d := fun hxx => hd (hxx ▸ hx)
      exact (hcong x (List.mem_cons_of_mem d hx) hxd).symm
    | succ id2 =>
      have hid2 : id2 < D2.length := by
        rw [List.length_cons] at hid
        omega
      have hgd : (d :: D2).getD (id2 + 1) 0 = D2.getD id2 0 := rfl
      show f d :: (D2.map f).set id2 (g ((d :: D2).getD (id2 + 1) 0)) =
        g d :: D2.map g
      rw [hgd]
      have hmem : D2.getD id2 0 ∈ D2 := by
        have hsome : D2[id2]? = some (D2.getD id2 0) := getElem?_eq_getD hid2
        exact List.mem_iff_getElem?.mpr ⟨id2, hsome⟩
      have hdne : d ≠ D2.getD id2 0 := fun hxx => hd (hxx ▸ hmem)
      congr 1
      · exact (hcong d (List.mem_cons_self d D2) hdne).symm
      · apply ih (List.nodup_cons.mp hnd).2 hid2
        intro x hx hxne
        exact hcong x (List.mem_cons_of_mem d hx) hxne

theorem set_concat_len {α : Type} :
    ∀ (l : List α) (x v : α), (l ++ [x]).set l.length v = l ++ [v] := by
  intro l
  induction l with
  | nil => intro x v; rfl
  | cons a l2 ih =>
    intro x v
    show a :: (l2 ++ [x]).set l2.length v = a :: (l2 ++ [v])
    rw [ih]

/-! ### The `sets` loop computes `buildSets` -/

theorem buildSets_succ_seen {R : Nat → Nat} {k : Nat}
    (h : R k ∈ firstSeen R k) :
    buildSets R (k + 1) = (firstSeen R k).map (fun r => groupOf R (k + 1) r) := by
  rw [buildSets, firstSeen, if_pos h]

theorem buildSets_succ_unseen {R : Nat → Nat} {k : Nat}
    (h : R k ∉ firstSeen R k) :
    buildSets R (k + 1) =
      (firstSeen R k).map (fun r => groupOf R (k + 1) r) ++ [[k]] := by
  rw [buildSets, firstSeen, if_neg h, List.map_append]
  congr 1
  rw [List.map_singleton, groupOf_succ_self,
    groupOf_eq_nil (fun j hj hr => h ((mem_firstSeen R k (R k)).mpr ⟨j, hj, hr⟩))]
  rfl

theorem buildSets_set_seen {R : Nat → Nat} {k idn : Nat}
    (hseen : R k ∈ firstSeen R k)
    (hidlt : idn < (firstSeen R k).length)
    (hgd : (firstSeen R k).getD idn 0 = R k) :
    (buildSets R k).set idn ((buildSets R k).getD idn [] ++ [k]) =
      buildSets R (k + 1) := by
  rw [buildSets_succ_seen hseen, buildSets, getD_map_lt hidlt]
  have hval : groupOf R k ((firstSeen R k).getD idn 0) ++ [k] =
      groupOf R (k + 1) ((firstSeen R k).getD idn 0) := by
    rw [hgd, groupOf_succ_self]
  rw [hval]
  apply map_set_eq_map (nodup_firstSeen R k) hidlt
  intro x hx hne
  rw [hgd] at hne
  exact groupOf_succ_ne (fun hxx => hne hxx.symm)

theorem buildSets_set_unseen {R : Nat → Nat} {k : Nat}
    (hseen : R k ∉ firstSeen R k) :
    ((buildSets R k) ++ [[]]).set (buildSets R k).length
        ((((buildSets R k) ++ [[]]).getD (buildSets R k).length []) ++ [k]) =
      buildSets R (k + 1) := by
  rw [getD_concat_len, set_concat_len, buildSets_succ_unseen hseen]
  congr 1
  rw [buildSets]
  apply List.map_congr_left
  intro x hx
  exact (groupOf_succ_ne (fun hxx => hseen (by rw [hxx]; exact hx))).symm

theorem setsGo_spec {R : Nat → Nat} :
    ∀ (m k : Nat) (ds : DisjointSet) (map : List (Nat × Nat)),
      WF ds → (∀ j, rootD ds.parents j = R j) →
      k + m = ds.parents.length →
      MapInv map (firstSeen R k) →
      ∃ ds2, setsGo ds (List.range' k m) (buildSets R k) map =
          (some (buildSets R (k + m)), ds2) ∧
        WF ds2 ∧ ds2.parents.length = ds.parents.length ∧
        (∀ j, rootD ds2.parents j = R j) := by
  intro m
  induction m with
  | zero =>
    intro k ds map hwf hR hlen hinv
    exact ⟨ds, rfl, hwf, rfl, hR⟩
  | succ m ih =>
    intro k ds map hwf hR hlen hinv
    have hk : k < ds.parents.length := by omega
    obtain ⟨root, ds1, h1, hr1, hl1, hw1, hroots1, hroot⟩ := root_of_spec hwf hk
    have hrootR : root = R k := by rw [hroot, hR k]
    have hR1 : ∀ j, rootD ds1.parents j = R j := fun j => by rw [hroots1 j, hR j]
    have hrange : List.range' k (m + 1) = k :: List.range' (k + 1) m := rfl
    rw [hrange]
    have hadd : k + (m + 1) = (k + 1) + m := by omega
    by_cases hseen : R k ∈ firstSeen R k
    · obtain ⟨idn, hidlt, hidel⟩ := List.mem_iff_getElem.mp hseen
      have hgd : (firstSeen R k).getD idn 0 = R k := by
        rw [List.getD_eq_getElem?_getD, List.getElem?_eq_getElem hidlt, hidel]
        rfl
      have hlk : lookupNat map (R k) = some idn := (hinv (R k) idn).mpr ⟨hidlt, hgd⟩
      rw [hrootR] at h1
      simp only [setsGo, h1, hlk]
      rw [buildSets_set_seen hseen hidlt hgd]
      have hinv1 : MapInv map (firstSeen R (k + 1)) := by
        rw [firstSeen, if_pos hseen]
        exact hinv
      obtain ⟨ds2, hgo, hw2, hl2, hR2⟩ :=
        ih (k + 1) ds1 map hw1 hR1 (by omega) hinv1
      rw [hadd]
      exact ⟨ds2, hgo, hw2, by rw [hl2, hl1], hR2⟩
    · have hlk : lookupNat map (R k) = none := mapInv_lookup_none hinv hseen
      rw [hrootR] at h1
      simp only [setsGo, h1, hlk]
      rw [buildSets_set_unseen hseen]
      have hinv1 : MapInv ((R k, (buildSets R k).length) :: map)
          (firstSeen R (k + 1)) := by
        rw [firstSeen, if_neg hseen, buildSets, List.length_map]
        exact mapInv_extend hinv hseen
      obtain ⟨ds2, hgo, hw2, hl2, hR2⟩ :=
        ih (k + 1) ds1 ((R k, (buildSets R k).length) :: map) hw1 hR1 (by omega) hinv1
      rw [hadd]
      exact ⟨ds2, hgo, hw2, by rw [hl2, hl1], hR2⟩

theorem sets_spec {ds : DisjointSet} (h : WF ds) :
    ∃ ds2, ds.sets =
        (some (buildSets (rootD ds.parents) ds.parents.length), ds2) ∧
      WF ds2 ∧ ds2.parents.length = ds.parents.length ∧
      (∀ j, rootD ds2.parents j = rootD ds.parents j) := by
  obtain ⟨ds2, hgo, hw2, hl2, hR2⟩ :=
    setsGo_spec (R := rootD ds.parents) ds.parents.length 0 ds [] h
      (fun j => rfl) (by omega) mapInv_nil
  rw [Nat.zero_add] at hgo
  refine ⟨ds2, ?_, hw2, hl2, hR2⟩
  rw [DisjointSet.sets, List.range_eq_range']
  exact hgo

/-! ### Every reachable engine state is well-formed -/

theorem reachable_wf {ds : DisjointSet} (h : Reachable ds) : WF ds := by
  induction h with
  | new => exact wf_empty
  | with_len n => exact wf_with_len n
  | with_capacity c => exact wf_empty
  | clear _ ih => exact wf_empty
  | add_singleton _ ih => exact add_singleton_wf ih
  | join a b _ ih => exact join_wf ih a b
  | root_of i _ ih => exact root_of_wf ih i
  | is_joined a b _ ih => exact is_joined_wf ih a b
  | sets _ ih => exact setsGo_wf _ ih _ _
  | eq_left h1 h2 ihs iht =>
    rename_i ds2 dt2
    rw [DisjointSet.eq]
    by_cases hl : ds2.len ≠ dt2.len
    · rw [if_pos hl]
      exact ihs
    · rw [if_neg hl]
      exact (eqGo_wf _ ihs iht _).1
  | eq_right h1 h2 ihs iht =>
    rename_i ds2 dt2
    rw [DisjointSet.eq]
    by_cases hl : ds2.len ≠ dt2.len
    · rw [if_pos hl]
      exact iht
    · rw [if_neg hl]
      exact (eqGo_wf _ ihs iht _).2

/-! ### Unconditional length preservation (for the container invariant) -/

theorem slow_path_parents_length (ds : DisjointSet) (a b : Nat) :
    (ds.slow_path a b).2.parents.length = ds.parents.length := by
  have e1 := root_of_parents_length ds a
  cases h1 : ds.root_of a with
  | mk o1 ds1 =>
    rw [h1] at e1
    have e1a : ds1.parents.length = ds.parents.length := e1
    cases o1 with
    | none => simp only [DisjointSet.slow_path, h1]; exact e1a
    | some root_first =>
      have e2 := root_of_parents_length ds1 b
      cases h2 : ds1.root_of b with
      | mk o2 ds2 =>
        rw [h2] at e2
        have e2a : ds2.parents.length = ds1.parents.length := e2
        cases o2 with
        | none => simp only [DisjointSet.slow_path, h1, h2]; rw [e2a, e1a]
        | some root_second =>
          simp only [DisjointSet.slow_path, h1, h2]
          by_cases hrr : root_first = root_second
          · rw [if_pos hrr]
            rw [e2a, e1a]
          · rw [if_neg hrr]
            cases hq2 : ds2.ranks[root_second]? with
            | none =>
              cases hq1 : ds2.ranks[root_first]? with
              | none => simp only [hq2, hq1]; rw [e2a, e1a]
              | some rk1 => simp only [hq2, hq1]; rw [e2a, e1a]
            | some rk2 =>
              cases hq1 : ds2.ranks[root_first]? with
              | none => simp only [hq2, hq1]; rw [e2a, e1a]
              | some rk1 =>
                simp only [hq2, hq1]
                by_cases hlt : rk1 < rk2
                · rw [if_pos hlt]
                  show (ds2.parents.set root_first root_second).length = _
                  rw [List.length_set, e2a, e1a]
                · rw [if_neg hlt]
                  show (ds2.parents.set root_second root_first).length = _
                  rw [List.length_set, e2a, e1a]

theorem join_parents_length_any (ds : DisjointSet) (a b : Nat) :
    (ds.join a b).2.parents.length = ds.parents.length := by
  cases hpa : ds.parents[a]? with
  | none =>
    cases hpb : ds.parents[b]? with
    | none => simp only [DisjointSet.join, hpa, hpb]
    | some pb => simp only [DisjointSet.join, hpa, hpb]
  | some pa =>
    cases hpb : ds.parents[b]? with
    | none => simp only [DisjointSet.join, hpa, hpb]
    | some pb =>
      simp only [DisjointSet.join, hpa, hpb]
      by_cases hpp : pa = pb
      · rw [if_pos hpp]
      · rw [if_neg hpp]
        exact slow_path_parents_length ds a b

theorem is_joined_parents_length_any (ds : DisjointSet) (a b : Nat) :
    (ds.is_joined a b).2.parents.length = ds.parents.length := by
  have e1 := root_of_parents_length ds a
  cases h1 : ds.root_of a with
  | mk o1 ds1 =>
    rw [h1] at e1
    have e1a : ds1.parents.length = ds.parents.length := e1
    cases o1 with
    | none => simp only [DisjointSet.is_joined, h1]; exact e1a
    | some ra =>
      have e2 := root_of_parents_length ds1 b
      cases h2 : ds1.root_of b with
      | mk o2 ds2 =>
        rw [h2] at e2
        have e2a : ds2.parents.length = ds1.parents.length := e2
        cases o2 with
        | none => simp only [DisjointSet.is_joined, h1, h2]; rw [e2a, e1a]
        | some rb => simp only [DisjointSet.is_joined, h1, h2]; rw [e2a, e1a]

/-! ## Claim theorems -/

/-- C1: the claim states that `eq` returns true iff the two structures of
equal length induce identical partitions.  The code only checks that the
map from self roots to other roots is functional, so a structure whose
partition strictly refines the partition of the other compares equal: with
`l` two singletons and `r` the same two elements joined, `eq l r` returns
`true` although the partitions differ (and `eq r l` returns `false`,
violating the symmetry required by the `Eq`/`PartialEq` contract the code
declares). -/
theorem eq_refinement_bug :
    ((DisjointSet.with_len 2).eq ((DisjointSet.with_len 2).join 0 1).2).1 =
        some true ∧
    ((((DisjointSet.with_len 2).join 0 1).2).eq (DisjointSet.with_len 2)).1 =
        some false ∧
    (DisjointSet.with_len 2).len = (((DisjointSet.with_len 2).join 0 1).2).len ∧
    rootD (DisjointSet.with_len 2).parents 0 ≠
      rootD (DisjointSet.with_len 2).parents 1 ∧
    rootD (((DisjointSet.with_len 2).join 0 1).2).parents 0 =
      rootD (((DisjointSet.with_len 2).join 0 1).2).parents 1 := by
  decide

/-- C2: on a well-formed structure, `sets` succeeds and returns groups that
together are a permutation of `[0, len)` (so they partition exactly the index
range), are each sorted ascending, are nonempty and ordered by their first
(hence minimum) element ascending, and put two indices in one group exactly
when `is_joined` returns true for the pair. -/
theorem sets_partitions {ds : DisjointSet} (h : WF ds) :
    ∃ out ds2, ds.sets = (some out, ds2) ∧
      List.Perm out.flatten (List.range ds.len) ∧
      (∀ g, g ∈ out → g.Pairwise (· < ·)) ∧
      (∀ g, g ∈ out → g ≠ []) ∧
      (out.map (fun g => g.headD 0)).Pairwise (· < ·) ∧
      (∀ i j, i < ds.len → j < ds.len →
        ((∃ g, g ∈ out ∧ i ∈ g ∧ j ∈ g) ↔ (ds2.is_joined i j).1 = some true)) := by
  obtain ⟨ds2, hsets, hw2, hl2, hR2⟩ := sets_spec h
  refine ⟨_, ds2, hsets, ?_, ?_, ?_, ?_, ?_⟩
  · rw [buildSets]
    simp only [groupOf]
    apply flatten_groups_perm _ _ _ (nodup_firstSeen _ _)
    intro x hx
    rw [List.mem_range] at hx
    exact (mem_firstSeen _ _ _).mpr ⟨x, hx, rfl⟩
  · intro g hg
    rw [buildSets] at hg
    obtain ⟨r, hr, hgr⟩ := List.mem_map.mp hg
    rw [← hgr]
    exact groupOf_pairwise _ _ _
  · intro g hg
    rw [buildSets] at hg
    obtain ⟨r, hr, hgr⟩ := List.mem_map.mp hg
    rw [← hgr]
    exact groupOf_nonempty hr
  · rw [buildSets, List.map_map]
    exact heads_pairwise _ _
  · intro i j hi hj
    obtain ⟨ds3, hij, _, _, _, _⟩ :=
      is_joined_spec hw2 (show i < ds2.parents.length by rw [hl2]; exact hi)
        (show j < ds2.parents.length by rw [hl2]; exact hj)
    rw [hij]
    constructor
    · rintro ⟨g, hg, hig, hjg⟩
      rw [buildSets] at hg
      obtain ⟨r, hr, hgr⟩ := List.mem_map.mp hg
      rw [← hgr] at hig hjg
      have h1 := (mem_groupOf.mp hig).2
      have h2 := (mem_groupOf.mp hjg).2
      show some (decide _) = some true
      rw [Option.some_inj, decide_eq_true_eq, hR2 i, hR2 j, h1, h2]
    · intro htrue
      have hd : rootD ds2.parents i = rootD ds2.parents j := by
        have h2 : some (decide (rootD ds2.parents i = rootD ds2.parents j)) =
            some true := htrue
        rw [Option.some_inj, decide_eq_true_eq] at h2
        exact h2
      have hRij : rootD ds.parents i = rootD ds.parents j := by
        rw [← hR2 i, ← hR2 j]
        exact hd
      refine ⟨groupOf (rootD ds.parents) ds.parents.length (rootD ds.parents i),
        ?_, ?_, ?_⟩
      · rw [buildSets]
        exact List.mem_map.mpr
          ⟨rootD ds.parents i, (mem_firstSeen _ _ _).mpr ⟨i, hi, rfl⟩, rfl⟩
      · exact mem_groupOf.mpr ⟨hi, rfl⟩
      · exact mem_groupOf.mpr ⟨hj, hRij.symm⟩

/-- C3: on a well-formed structure with in-bounds arguments, `join a b`
succeeds, returns `true` exactly when `a` and `b` were in different sets
immediately before the call, makes `is_joined a b` true afterwards, and a
second `join a b` returns `false` and does not change the root of any
element. -/
theorem join_correct {ds : DisjointSet} (h : WF ds) {a b : Nat}
    (ha : a < ds.len) (hb : b < ds.len) :
    ∃ res ds1, ds.join a b = (some res, ds1) ∧
      (res = true ↔ rootD ds.parents a ≠ rootD ds.parents b) ∧
      (ds1.is_joined a b).1 = some true ∧
      ∃ ds2, ds1.join a b = (some false, ds2) ∧
        ∀ j, rootD ds2.parents j = rootD ds1.parents j := by
  by_cases heq : rootD ds.parents a = rootD ds.parents b
  · obtain ⟨ds1, h1, hr1, hl1, hw1, hroots1⟩ := join_spec_same h ha hb heq
    have ha1 : a < ds1.parents.length := by rw [hl1]; exact ha
    have hb1 : b < ds1.parents.length := by rw [hl1]; exact hb
    have heq1 : rootD ds1.parents a = rootD ds1.parents b := by
      rw [hroots1 a, hroots1 b]
      exact heq
    refine ⟨false, ds1, h1, by simp [heq], ?_, ?_⟩
    · obtain ⟨ds3, hij, _, _, _, _⟩ := is_joined_spec hw1 ha1 hb1
      rw [hij]
      show some (decide _) = some true
      rw [Option.some_inj, decide_eq_true_eq]
      exact heq1
    · obtain ⟨ds2, h2, _, _, _, hroots2⟩ := join_spec_same hw1 ha1 hb1 heq1
      exact ⟨ds2, h2, hroots2⟩
  · obtain ⟨ds1, h1, hl1, hw1, himp1, himp2, himp3⟩ := join_spec_diff h ha hb heq
    have ha1 : a < ds1.parents.length := by rw [hl1]; exact ha
    have hb1 : b < ds1.parents.length := by rw [hl1]; exact hb
    have heq1 : rootD ds1.parents a = rootD ds1.parents b := by
      rcases Nat.lt_trichotomy (ds.ranks.getD (rootD ds.parents a) 0)
          (ds.ranks.getD (rootD ds.parents b) 0) with hc | hc | hc
      · obtain ⟨_, _, hform⟩ := himp1 hc
        rw [hform a, hform b, if_pos rfl, if_neg (fun hx => heq hx.symm)]
      · obtain ⟨_, _, hform⟩ := himp3 hc
        rw [hform a, hform b, if_neg heq, if_pos rfl]
      · obtain ⟨_, _, hform⟩ := himp2 hc
        rw [hform a, hform b, if_neg heq, if_pos rfl]
    refine ⟨true, ds1, h1, by simp [heq], ?_, ?_⟩
    · obtain ⟨ds3, hij, _, _, _, _⟩ := is_joined_spec hw1 ha1 hb1
      rw [hij]
      show some (decide _) = some true
      rw [Option.some_inj, decide_eq_true_eq]
      exact heq1
    · obtain ⟨ds2, h2, _, _, _, hroots2⟩ := join_spec_same hw1 ha1 hb1 heq1
      exact ⟨ds2, h2, hroots2⟩

/-- C4: an out-of-bounds index makes the operation fail with no change to the
induced partition: `join` fails leaving the state literally unchanged (the
bounds are checked before any mutation), `root_of` likewise, and `is_joined`
fails leaving every root unchanged (only harmless path compression may have
happened).  In particular `join 1000 5` on a structure of length 100 fails
and a subsequent `sets` returns the same partition as before the call. -/
theorem oob_fails_without_mutation :
    (∀ ds : DisjointSet, ∀ a b : Nat, ds.len ≤ a ∨ ds.len ≤ b →
      ds.join a b = (none, ds)) ∧
    (∀ ds : DisjointSet, ∀ i : Nat, ds.len ≤ i → ds.root_of i = (none, ds)) ∧
    (∀ ds : DisjointSet, ∀ a b : Nat, WF ds → ds.len ≤ a ∨ ds.len ≤ b →
      (ds.is_joined a b).1 = none ∧
      ∀ j, rootD (ds.is_joined a b).2.parents j = rootD ds.parents j) ∧
    (DisjointSet.with_len 100).join 1000 5 = (none, DisjointSet.with_len 100) ∧
    ((DisjointSet.with_len 100).join 1000 5).2.sets =
      (DisjointSet.with_len 100).sets := by
  have hjoin : ∀ ds : DisjointSet, ∀ a b : Nat, ds.len ≤ a ∨ ds.len ≤ b →
      ds.join a b = (none, ds) := fun ds a b hor => join_oob hor
  have hroot : ∀ ds : DisjointSet, ∀ i : Nat, ds.len ≤ i →
      ds.root_of i = (none, ds) := fun ds i hi => root_of_oob hi
  have hisj : ∀ ds : DisjointSet, ∀ a b : Nat, WF ds → ds.len ≤ a ∨ ds.len ≤ b →
      (ds.is_joined a b).1 = none ∧
      ∀ j, rootD (ds.is_joined a b).2.parents j = rootD ds.parents j := by
    intro ds a b hwf hor
    have hor2 : ds.parents.length ≤ a ∨ ds.parents.length ≤ b := hor
    by_cases ha : a < ds.parents.length
    · have hbge : ds.parents.length ≤ b := by
        rcases hor2 with hx | hx
        · omega
        · exact hx
      obtain ⟨ra, ds1, h1, hr1, hl1, hw1, hroots1, hra⟩ := root_of_spec hwf ha
      have h2 : ds1.root_of b = (none, ds1) := root_of_oob (by rw [hl1]; exact hbge)
      simp only [DisjointSet.is_joined, h1, h2]
      exact ⟨by trivial, hroots1⟩
    · have h1 : ds.root_of a = (none, ds) := root_of_oob (by omega)
      simp [DisjointSet.is_joined, h1]
  have hconc : (DisjointSet.with_len 100).join 1000 5 =
      (none, DisjointSet.with_len 100) := by
    apply hjoin
    left
    show (List.range 100).length ≤ 1000
    rw [List.length_range]
    omega
  refine ⟨hjoin, hroot, hisj, hconc, ?_⟩
  rw [hconc]

/-- C5: on a well-formed structure, consecutive `root_of` calls on two
members of the same class return the same value, and although `root_of`
rewrites parent pointers, it never changes which elements are joined: the
joined-ness relation after the two calls is the one before them. -/
theorem root_of_stable {ds : DisjointSet} (h : WF ds) {i j : Nat}
    (hi : i < ds.len) (hj : j < ds.len)
    (hij : rootD ds.parents i = rootD ds.parents j) :
    ∃ ri ds1 rj ds2, ds.root_of i = (some ri, ds1) ∧
      ds1.root_of j = (some rj, ds2) ∧ ri = rj ∧
      (∀ a b, rootD ds2.parents a = rootD ds2.parents b ↔
        rootD ds.parents a = rootD ds.parents b) := by
  obtain ⟨ri, ds1, h1, hr1, hl1, hw1, hroots1, hri⟩ := root_of_spec h hi
  obtain ⟨rj, ds2, h2, hr2, hl2, hw2, hroots2, hrj⟩ :=
    root_of_spec hw1 (show j < ds1.parents.length by rw [hl1]; exact hj)
  refine ⟨ri, ds1, rj, ds2, h1, h2, ?_, ?_⟩
  · rw [hri, hrj, hroots1 j]
    exact hij
  · intro a b
    rw [hroots2 a, hroots2 b, hroots1 a, hroots1 b]

/-- C6: when `join` merges two distinct classes, the root of strictly
smaller rank is re-parented under the root of larger rank and the rank list
is unchanged; on an exact tie the root of the first argument becomes the
parent and exactly its rank grows by exactly one. -/
theorem join_union_by_rank {ds : DisjointSet} (h : WF ds) {a b : Nat}
    (ha : a < ds.len) (hb : b < ds.len)
    (hne : rootD ds.parents a ≠ rootD ds.parents b) :
    ∃ ds3, ds.join a b = (some true, ds3) ∧
      (ds.ranks.getD (rootD ds.parents a) 0 < ds.ranks.getD (rootD ds.parents b) 0 →
        ds3.parents.getD (rootD ds.parents a) 0 = rootD ds.parents b ∧
        ds3.ranks = ds.ranks) ∧
      (ds.ranks.getD (rootD ds.parents b) 0 < ds.ranks.getD (rootD ds.parents a) 0 →
        ds3.parents.getD (rootD ds.parents b) 0 = rootD ds.parents a ∧
        ds3.ranks = ds.ranks) ∧
      (ds.ranks.getD (rootD ds.parents a) 0 = ds.ranks.getD (rootD ds.parents b) 0 →
        ds3.parents.getD (rootD ds.parents b) 0 = rootD ds.parents a ∧
        ds3.ranks = ds.ranks.set (rootD ds.parents a)
          (ds.ranks.getD (rootD ds.parents a) 0 + 1)) := by
  obtain ⟨ds3, h3, hl3, hw3, himp1, himp2, himp3⟩ := join_spec_diff h ha hb hne
  refine ⟨ds3, h3, ?_, ?_, ?_⟩
  · intro hc
    obtain ⟨hr, hp, _⟩ := himp1 hc
    exact ⟨hp, hr⟩
  · intro hc
    obtain ⟨hr, hp, _⟩ := himp2 hc
    exact ⟨hp, hr⟩
  · intro hc
    obtain ⟨hr, hp, _⟩ := himp3 hc
    exact ⟨hp, hr⟩

/-- C7: `add_singleton` returns the old length, appends one element that is
its own parent with rank `0`, leaves the root of every existing element
unchanged, and joins the new element to no existing element. -/
theorem add_singleton_correct {ds : DisjointSet} (h : WF ds) :
    (ds.add_singleton).1 = ds.len ∧
    (ds.add_singleton).2.len = ds.len + 1 ∧
    (ds.add_singleton).2.parents.getD ds.len 0 = ds.len ∧
    (ds.add_singleton).2.ranks.getD ds.len 0 = 0 ∧
    (∀ j, j < ds.len → rootD (ds.add_singleton).2.parents j = rootD ds.parents j) ∧
    (∀ j, j < ds.len →
      rootD (ds.add_singleton).2.parents ds.len ≠
        rootD (ds.add_singleton).2.parents j) := by
  have hp2 : (ds.add_singleton).2.parents = ds.parents ++ [ds.len] := rfl
  have hr2 : (ds.add_singleton).2.ranks = ds.ranks ++ [0] := rfl
  have hcl : (ds.parents ++ [ds.len])[DisjointSet.len ds]? =
      some (DisjointSet.len ds) :=
    List.getElem?_concat_length ds.parents (DisjointSet.len ds)
  have hnew : rootD (ds.parents ++ [ds.len]) ds.len = ds.len := rootD_of_root hcl
  refine ⟨rfl, ?_, ?_, ?_, ?_, ?_⟩
  · show (ds.parents ++ [ds.len]).length = ds.parents.length + 1
    rw [List.length_append, List.length_singleton]
  · show (ds.parents ++ [ds.len]).getD ds.parents.length 0 = ds.len
    exact getD_concat_len
  · show (ds.ranks ++ [0]).getD ds.len 0 = 0
    have hlen : DisjointSet.len ds = ds.ranks.length := h.1.symm
    rw [hlen]
    exact getD_concat_len
  · intro j hj
    rw [hp2]
    exact rootD_append h.2.1 h.2.2 hj
  · intro j hj
    rw [hp2, hnew, rootD_append h.2.1 h.2.2 hj]
    have := rootD_lt h.2.1 h.2.2 (show j < ds.parents.length from hj)
    intro hx
    rw [← hx] at this
    exact lt_irrefl _ this

/-- C8: every engine state reachable by any sequence of operations satisfies
the forest invariant: all parent pointers are in `[0, len)`, and following
parent pointers from any in-bounds index terminates at a root (an element
that is its own parent). -/
theorem reachable_forest_invariant {ds : DisjointSet} (h : Reachable ds) :
    (∀ i, i < ds.len → ds.parents.getD i 0 < ds.len) ∧
    (∀ i, i < ds.len →
      ∃ r, findRoot ds.len ds.parents i = some r ∧ ds.parents.getD r 0 = r) := by
  have hwf : WF ds := reachable_wf h
  constructor
  · exact hwf.2.1
  · intro i hi
    obtain ⟨r, hr⟩ := findRoot_total hwf.2.1 hwf.2.2 (show i < ds.parents.length from hi)
    have hroot := findRoot_isRoot hr
    have hrl : r < ds.parents.length := findRoot_lt hr
    refine ⟨r, hr, ?_⟩
    have hsome := getElem?_eq_getD (p := ds.parents) (d := 0) hrl
    rw [hsome] at hroot
    exact Option.some_inj.mp hroot

/-- C9: every container state reachable by any sequence of operations keeps
the value sequence and the engine at the same length. -/
theorem dsv_length_sync {T : Type} {dsv : DisjointSetVec T}
    (h : ReachableV dsv) : dsv.data.length = dsv.indices.parents.length := by
  induction h with
  | new => rfl
  | with_capacity c => rfl
  | fromList value =>
    show value.length = (List.range value.length).length
    rw [List.length_range]
  | push v _ ih =>
    show (_ ++ [v]).length = (_ ++ [_]).length
    rw [List.length_append, List.length_append, List.length_singleton,
      List.length_singleton, ih]
  | join a b hprev ih =>
    rename_i dsv2
    have hl := join_parents_length_any dsv2.indices a b
    cases hj : dsv2.indices.join a b with
    | mk res d =>
      rw [hj] at hl
      have hl2 : d.parents.length = dsv2.indices.parents.length := hl
      simp only [DisjointSetVec.join, hj]
      rw [hl2]
      exact ih
  | is_joined a b hprev ih =>
    rename_i dsv2
    have hl := is_joined_parents_length_any dsv2.indices a b
    cases hj : dsv2.indices.is_joined a b with
    | mk res d =>
      rw [hj] at hl
      have hl2 : d.parents.length = dsv2.indices.parents.length := hl
      simp only [DisjointSetVec.is_joined, hj]
      rw [hl2]
      exact ih
  | index_set hprev hset ih =>
    rename_i dsv2 dsv3 i v
    rw [DisjointSetVec.index_set] at hset
    by_cases hi : i < dsv2.data.length
    · rw [if_pos hi] at hset
      have hd3 : dsv3 = { dsv2 with data := dsv2.data.set i v } :=
        (Option.some_inj.mp hset).symm
      rw [hd3]
      show (dsv2.data.set i v).length = dsv2.indices.parents.length
      rw [List.length_set]
      exact ih
    · rw [if_neg hi] at hset
      exact absurd hset (by simp)
  | iter_mut f hprev ih =>
    rename_i dsv2
    show (dsv2.data.map f).length = dsv2.indices.parents.length
    rw [List.length_map]
    exact ih

/-- C10: the container accessor `get` never fails: it returns the value at
the index when the index is in bounds and `none` otherwise, and by
construction it reads only the value sequence, mutating nothing. -/
theorem dsv_get_total {T : Type} (dsv : DisjointSetVec T) (i : Nat) :
    (∀ h : i < dsv.len, dsv.get i = some (dsv.data.get ⟨i, h⟩)) ∧
    (dsv.len ≤ i → dsv.get i = none) := by
  constructor
  · intro hlt
    rw [DisjointSetVec.get, List.getElem?_eq_getElem hlt]
    rfl
  · intro hge
    rw [DisjointSetVec.get, List.getElem?_eq_none hge]

/-! ## Witnesses: the claim theorems applied at concrete inputs -/

/-- Witness for C2 at a structure of length 3. -/
theorem sets_partitions_witness :
    WF (DisjointSet.with_len 3) ∧
    (∃ out ds2, (DisjointSet.with_len 3).sets = (some out, ds2) ∧
      List.Perm out.flatten (List.range (DisjointSet.with_len 3).len) ∧
      (∀ g, g ∈ out → g.Pairwise (· < ·)) ∧
      (∀ g, g ∈ out → g ≠ []) ∧
      (out.map (fun g => g.headD 0)).Pairwise (· < ·) ∧
      (∀ i j, i < (DisjointSet.with_len 3).len → j < (DisjointSet.with_len 3).len →
        ((∃ g, g ∈ out ∧ i ∈ g ∧ j ∈ g) ↔ (ds2.is_joined i j).1 = some true))) :=
  ⟨by decide, sets_partitions (by decide)⟩

/-- Witness for C3 at a structure of length 2 with arguments 0 and 1. -/
theorem join_correct_witness :
    (WF (DisjointSet.with_len 2) ∧ 0 < (DisjointSet.with_len 2).len ∧
      1 < (DisjointSet.with_len 2).len) ∧
    (∃ res ds1, (DisjointSet.with_len 2).join 0 1 = (some res, ds1) ∧
      (res = true ↔ rootD (DisjointSet.with_len 2).parents 0 ≠
        rootD (DisjointSet.with_len 2).parents 1) ∧
      (ds1.is_joined 0 1).1 = some true ∧
      ∃ ds2, ds1.join 0 1 = (some false, ds2) ∧
        ∀ j, rootD ds2.parents j = rootD ds1.parents j) :=
  ⟨⟨by decide, by decide, by decide⟩,
   join_correct (by decide) (by decide) (by decide)⟩

/-- Witness for C4 at a structure of length 3 with index 5 out of bounds. -/
theorem oob_fails_without_mutation_witness :
    ((DisjointSet.with_len 3).len ≤ 5 ∨ (DisjointSet.with_len 3).len ≤ 0) ∧
    (DisjointSet.with_len 3).join 5 0 = (none, DisjointSet.with_len 3) ∧
    ((DisjointSet.with_len 3).is_joined 0 5).1 = none :=
  ⟨Or.inl (by decide),
   oob_fails_without_mutation.1 (DisjointSet.with_len 3) 5 0 (Or.inl (by decide)),
   (oob_fails_without_mutation.2.2.1 (DisjointSet.with_len 3) 0 5 (by decide)
     (Or.inr (by decide))).1⟩

/-- Witness for C5 at the two-element structure with 0 and 1 joined. -/
theorem root_of_stable_witness :
    (WF (((DisjointSet.with_len 2).join 0 1).2) ∧
      rootD (((DisjointSet.with_len 2).join 0 1).2).parents 0 =
        rootD (((DisjointSet.with_len 2).join 0 1).2).parents 1) ∧
    (∃ ri ds1 rj ds2,
      (((DisjointSet.with_len 2).join 0 1).2).root_of 0 = (some ri, ds1) ∧
      ds1.root_of 1 = (some rj, ds2) ∧ ri = rj ∧
      (∀ a b, rootD ds2.parents a = rootD ds2.parents b ↔
        rootD (((DisjointSet.with_len 2).join 0 1).2).parents a =
          rootD (((DisjointSet.with_len 2).join 0 1).2).parents b)) :=
  ⟨⟨by decide, by decide⟩,
   root_of_stable (by decide) (by decide) (by decide) (by decide)⟩

/-- Witness for C6 at a structure of length 2 (the equal-rank case). -/
theorem join_union_by_rank_witness :
    (WF (DisjointSet.with_len 2) ∧
      rootD (DisjointSet.with_len 2).parents 0 ≠
        rootD (DisjointSet.with_len 2).parents 1) ∧
    (∃ ds3, (DisjointSet.with_len 2).join 0 1 = (some true, ds3) ∧
      ((DisjointSet.with_len 2).ranks.getD (rootD (DisjointSet.with_len 2).parents 0) 0 <
          (DisjointSet.with_len 2).ranks.getD (rootD (DisjointSet.with_len 2).parents 1) 0 →
        ds3.parents.getD (rootD (DisjointSet.with_len 2).parents 0) 0 =
          rootD (DisjointSet.with_len 2).parents 1 ∧
        ds3.ranks = (DisjointSet.with_len 2).ranks) ∧
      ((DisjointSet.with_len 2).ranks.getD (rootD (DisjointSet.with_len 2).parents 1) 0 <
          (DisjointSet.with_len 2).ranks.getD (rootD (DisjointSet.with_len 2).parents 0) 0 →
        ds3.parents.getD (rootD (DisjointSet.with_len 2).parents 1) 0 =
          rootD (DisjointSet.with_len 2).parents 0 ∧
        ds3.ranks = (DisjointSet.with_len 2).ranks) ∧
      ((DisjointSet.with_len 2).ranks.getD (rootD (DisjointSet.with_len 2).parents 0) 0 =
          (DisjointSet.with_len 2).ranks.getD (rootD (DisjointSet.with_len 2).parents 1) 0 →
        ds3.parents.getD (rootD (DisjointSet.with_len 2).parents 1) 0 =
          rootD (DisjointSet.with_len 2).parents 0 ∧
        ds3.ranks = (DisjointSet.with_len 2).ranks.set
          (rootD (DisjointSet.with_len 2).parents 0)
          ((DisjointSet.with_len 2).ranks.getD
            (rootD (DisjointSet.with_len 2).parents 0) 0 + 1))) :=
  ⟨⟨by decide, by decide⟩,
   join_union_by_rank (by decide) (by decide) (by decide) (by decide)⟩

/-- Witness for C7 at a structure of length 2. -/
theorem add_singleton_correct_witness :
    WF (DisjointSet.with_len 2) ∧
    (((DisjointSet.with_len 2).add_singleton).1 = (DisjointSet.with_len 2).len ∧
      ((DisjointSet.with_len 2).add_singleton).2.len = (DisjointSet.with_len 2).len + 1 ∧
      ((DisjointSet.with_len 2).add_singleton).2.parents.getD
        (DisjointSet.with_len 2).len 0 = (DisjointSet.with_len 2).len ∧
      ((DisjointSet.with_len 2).add_singleton).2.ranks.getD
        (DisjointSet.with_len 2).len 0 = 0 ∧
      (∀ j, j < (DisjointSet.with_len 2).len →
        rootD ((DisjointSet.with_len 2).add_singleton).2.parents j =
          rootD (DisjointSet.with_len 2).parents j) ∧
      (∀ j, j < (DisjointSet.with_len 2).len →
        rootD ((DisjointSet.with_len 2).add_singleton).2.parents
            (DisjointSet.with_len 2).len ≠
          rootD ((DisjointSet.with_len 2).add_singleton).2.parents j)) :=
  ⟨by decide, add_singleton_correct (by decide)⟩

/-- Witness for C8 at the freshly constructed structure of length 3. -/
theorem reachable_forest_invariant_witness :
    Reachable (DisjointSet.with_len 3) ∧
    ((∀ i, i < (DisjointSet.with_len 3).len →
        (DisjointSet.with_len 3).parents.getD i 0 < (DisjointSet.with_len 3).len) ∧
      (∀ i, i < (DisjointSet.with_len 3).len →
        ∃ r, findRoot (DisjointSet.with_len 3).len (DisjointSet.with_len 3).parents i =
            some r ∧ (DisjointSet.with_len 3).parents.getD r 0 = r)) :=
  ⟨Reachable.with_len 3, reachable_forest_invariant (Reachable.with_len 3)⟩

/-- Witness for C9 at a container built from two values and one push. -/
theorem dsv_length_sync_witness :
    ReachableV ((DisjointSetVec.fromList [10, 20]).push 30) ∧
    ((DisjointSetVec.fromList [10, 20]).push 30).data.length =
      ((DisjointSetVec.fromList [10, 20]).push 30).indices.parents.length :=
  ⟨ReachableV.push 30 (ReachableV.fromList [10, 20]),
   dsv_length_sync (ReachableV.push 30 (ReachableV.fromList [10, 20]))⟩

/-- Witness for C10 at a container of three values, with one in-bounds and
one out-of-bounds index. -/
theorem dsv_get_total_witness :
    (DisjointSetVec.fromList [10, 40, 30]).get 1 = some 40 ∧
    (DisjointSetVec.fromList [10, 40, 30]).get 3 = none :=
  ⟨((dsv_get_total (DisjointSetVec.fromList [10, 40, 30]) 1).1 (by decide)).trans
     (by decide),
   (dsv_get_total (DisjointSetVec.fromList [10, 40, 30]) 3).2 (by decide)⟩

end DisjointSpec
